import Mathlib

/-!
Verification of the parallel deep-research stream multiplexer.

The definitions below are a shallow embedding of the repository's code:

* `StreamEvent` embeds the tagged union of `src/types/stream-events.ts`.
* `mergeLoop` embeds the `POST` merge loop of
  `src/app/api/deep-research/route.ts` (the `pendingPromises` map, the
  `Promise.race`, removal of finished generators, and re-issuing of a
  single `next()` per generator).  The nondeterministic order in which
  pending promises settle is modelled by an explicit schedule
  `sched : Nat → Nat` picking, at each loop iteration, which pending
  entry's promise resolves.
* `naiveLoop` embeds the earlier formulation of the same loop that
  rebuilt a `next()` promise for every active generator on every
  iteration; `runSingleDeepResearch` embeds the producer generator;
  the JSON/SSE layer embeds the wire framing and the client decoder.

JavaScript strings are modelled as `List Char`, machine integers
(`Date.now()` timestamps, job ids, sequence numbers) as `Nat`.
-/

namespace DeepResearch

/-- Embedding of the `StreamEvent` union of `src/types/stream-events.ts`:
one constructor per interface, with the same fields (`job` and
`timestamp` from `BaseStreamEvent`, plus the tag-specific fields).
`complete` is the one variant without a `job` field. -/
inductive StreamEvent where
  | webSearchSearching (job : Nat) (item_id : String) (sequence_number : Nat) (timestamp : Nat)
  | webSearchCompleted (job : Nat) (item_id : String) (timestamp : Nat)
  | content (job : Nat) (content : String) (timestamp : Nat)
  | textDone (job : Nat) (item_id : String) (timestamp : Nat)
  | jobDone (job : Nat) (timestamp : Nat)
  | errorEvent (job : Nat) (error : String) (timestamp : Nat)
  | complete (timestamp : Nat)
  deriving DecidableEq

/-- Whether an event is the final `complete` variant. -/
def StreamEvent.isComplete : StreamEvent → Bool
  | .complete _ => true
  | .webSearchSearching _ _ _ _ => false
  | .webSearchCompleted _ _ _ => false
  | .content _ _ _ => false
  | .textDone _ _ _ => false
  | .jobDone _ _ => false
  | .errorEvent _ _ _ => false

/-- Whether an event is the per-job `error` variant. -/
def StreamEvent.isError : StreamEvent → Bool
  | .errorEvent _ _ _ => true
  | .webSearchSearching _ _ _ _ => false
  | .webSearchCompleted _ _ _ => false
  | .content _ _ _ => false
  | .textDone _ _ _ => false
  | .jobDone _ _ => false
  | .complete _ => false

/-- Embedding of the `hasJobField` type guard of
`src/types/stream-events.ts`: every variant except `complete` carries
a `job` field. -/
def StreamEvent.hasJobField : StreamEvent → Bool
  | .complete _ => false
  | .webSearchSearching _ _ _ _ => true
  | .webSearchCompleted _ _ _ => true
  | .content _ _ _ => true
  | .textDone _ _ _ => true
  | .jobDone _ _ => true
  | .errorEvent _ _ _ => true

/-! ## Selecting the promise that settles first

`Promise.race(pendingPromises.values())` resolves with whichever
pending promise settles first.  We model that choice by an index into
the current list of pending entries; `pickAt` splits the list at that
index. -/

/-- Split a list at index `i` into the elements before, the element at
`i`, and the elements after.  Returns `none` iff `i` is out of range. -/
def pickAt {β : Type _} : List β → Nat → Option (List β × β × List β)
  | [], _ => none
  | x :: xs, 0 => some ([], x, xs)
  | x :: xs, n + 1 => (pickAt xs n).map (fun q => (x :: q.1, q.2.1, q.2.2))

theorem pickAt_eq_append {β : Type _} :
    ∀ (l : List β) (i : Nat) (pre : List β) (x : β) (post : List β),
      pickAt l i = some (pre, x, post) → l = pre ++ x :: post
  | [], _, _, _, _, h => by simp [pickAt] at h
  | x :: xs, 0, pre, y, post, h => by
      simp [pickAt] at h
      simp [← h.1, ← h.2.1, ← h.2.2]
  | x :: xs, n + 1, pre, y, post, h => by
      rw [pickAt] at h
      cases hq : pickAt xs n with
      | none => rw [hq] at h; simp at h
      | some q =>
        obtain ⟨pre', y', post'⟩ := q
        rw [hq] at h
        simp only [Option.map_some', Option.some.injEq, Prod.mk.injEq] at h
        have := pickAt_eq_append xs n pre' y' post' hq
        rw [← h.1, ← h.2.1, ← h.2.2]
        simp [this]

theorem pickAt_isSome {β : Type _} :
    ∀ (l : List β) (i : Nat), i < l.length → (pickAt l i).isSome
  | [], i, h => by simp at h
  | x :: xs, 0, _ => by simp [pickAt]
  | x :: xs, n + 1, h => by
      simp only [List.length_cons, Nat.add_lt_add_iff_right] at h
      have := pickAt_isSome xs n h
      rw [pickAt]
      cases hq : pickAt xs n with
      | none => rw [hq] at this; simp at this
      | some q => simp

/-! ## The merge loop of `POST` (route.ts lines 153-175)

State: the `pendingPromises` map, an association list from generator
id (the index assigned by `queries.map((query, index) => ...)`) to the
list of events that generator has yet to yield.  Each entry stands for
the single pending `next()` promise of that generator.  When the
scheduled entry's remaining list is empty its promise resolves with
`done: true` and the generator is deleted; otherwise the yielded event
is enqueued (tagged with its generator id) and a fresh `next()`
promise replaces the entry.  The loop runs while the map is nonempty;
`pickAt` fails exactly on the empty map. -/

/-- Termination measure: every pending generator contributes its
remaining event count plus one (for the final `done` resolution). -/
def pendingMeasure {α : Type _} (p : List (Nat × List α)) : Nat :=
  (p.map (fun e => e.2.length + 1)).sum

theorem pendingMeasure_append {α : Type _} (p q : List (Nat × List α)) :
    pendingMeasure (p ++ q) = pendingMeasure p + pendingMeasure q := by
  simp [pendingMeasure]

theorem pendingMeasure_cons {α : Type _} (x : Nat × List α) (p : List (Nat × List α)) :
    pendingMeasure (x :: p) = x.2.length + 1 + pendingMeasure p := by
  simp [pendingMeasure]

/-- The merge loop of `POST`: race the pending promises (the schedule
picks which settles), delete a finished generator, otherwise enqueue
its event and immediately re-issue its single `next()`.  The output
lists each enqueued event tagged with the id of the generator that
yielded it. -/
def mergeLoop {α : Type _} (sched : Nat → Nat) (k : Nat)
    (pending : List (Nat × List α)) : List (Nat × α) :=
  match hpick : pickAt pending (sched k % pending.length) with
  | none => []
  | some (pre, (g, []), post) => mergeLoop sched (k + 1) (pre ++ post)
  | some (pre, (g, e :: rest), post) =>
      (g, e) :: mergeLoop sched (k + 1) (pre ++ (g, rest) :: post)
termination_by pendingMeasure pending
decreasing_by
  · have hdecomp := pickAt_eq_append _ _ _ _ _ hpick
    subst hdecomp
    simp [pendingMeasure_append, pendingMeasure_cons]
  · have hdecomp := pickAt_eq_append _ _ _ _ _ hpick
    subst hdecomp
    simp [pendingMeasure_append, pendingMeasure_cons]

theorem mergeLoop_nil {α : Type _} (sched : Nat → Nat) (k : Nat) :
    mergeLoop (α := α) sched k [] = [] := by
  conv_lhs => rw [mergeLoop.eq_def]
  simp [pickAt]

theorem mergeLoop_done {α : Type _} (sched : Nat → Nat) (k : Nat)
    (pending pre post : List (Nat × List α)) (g : Nat)
    (hpick : pickAt pending (sched k % pending.length) = some (pre, (g, []), post)) :
    mergeLoop sched k pending = mergeLoop sched (k + 1) (pre ++ post) := by
  conv_lhs => rw [mergeLoop.eq_def]
  split
  · simp_all
  · rename_i h
    rw [hpick] at h
    cases h
    rfl
  · rename_i h
    rw [hpick] at h
    cases h

theorem mergeLoop_yield {α : Type _} (sched : Nat → Nat) (k : Nat)
    (pending pre post : List (Nat × List α)) (g : Nat) (e : α) (rest : List α)
    (hpick : pickAt pending (sched k % pending.length) = some (pre, (g, e :: rest), post)) :
    mergeLoop sched k pending = (g, e) :: mergeLoop sched (k + 1) (pre ++ (g, rest) :: post) := by
  conv_lhs => rw [mergeLoop.eq_def]
  split
  · simp_all
  · rename_i h
    rw [hpick] at h
    cases h
  · rename_i h
    rw [hpick] at h
    cases h
    rfl

/-! ## Per-generator analysis of the merged output -/

/-- The events a given generator id still has to yield, read off the
pending map (the concatenation of the event lists of all entries with
that id; with distinct keys this is just that generator's list). -/
def eventsOf {α : Type _} (g : Nat) (p : List (Nat × List α)) : List α :=
  (p.filter (fun e => e.1 == g)).flatMap (fun e => e.2)

theorem eventsOf_append {α : Type _} (g : Nat) (p q : List (Nat × List α)) :
    eventsOf g (p ++ q) = eventsOf g p ++ eventsOf g q := by
  simp [eventsOf, List.filter_append]

theorem eventsOf_cons {α : Type _} (g : Nat) (x : Nat × List α) (p : List (Nat × List α)) :
    eventsOf g (x :: p) = (if x.1 == g then x.2 else []) ++ eventsOf g p := by
  by_cases h : x.1 == g <;> simp [eventsOf, List.filter_cons, h]

theorem eventsOf_eq_nil {α : Type _} (g : Nat) (p : List (Nat × List α))
    (h : g ∉ p.map Prod.fst) : eventsOf g p = [] := by
  have : p.filter (fun e => e.1 == g) = [] := by
    rw [List.filter_eq_nil_iff]
    intro a ha hag
    exact h (List.mem_map.mpr ⟨a, ha, by simpa using hag⟩)
  simp [eventsOf, this]

theorem nodup_middle {l1 l2 : List Nat} {g : Nat} (h : (l1 ++ g :: l2).Nodup) :
    g ∉ l1 ∧ g ∉ l2 := by
  rw [List.nodup_append] at h
  obtain ⟨-, h2, hdis⟩ := h
  refine ⟨fun hg => hdis hg (by simp), ?_⟩
  simpa using (List.nodup_cons.mp h2).1

/-- Core correctness of the merge loop: restricted to any single
generator id (with the pending map holding at most one entry per id,
as the `Map` keyed by generator object does), the merged output is
exactly that generator's remaining event sequence, in order. -/
theorem mergeLoop_eventsOf {α : Type _} (sched : Nat → Nat) (g : Nat) :
    ∀ (k : Nat) (pending : List (Nat × List α)), (pending.map Prod.fst).Nodup →
      (mergeLoop sched k pending).filter (fun q => q.1 == g) =
        (eventsOf g pending).map (fun e => (g, e)) := by
  intro k pending
  induction k, pending using mergeLoop.induct sched with
  | case1 k pending hpick =>
    intro hnd
    cases pending with
    | nil => simp [mergeLoop_nil, eventsOf]
    | cons x xs =>
      exfalso
      have := pickAt_isSome (x :: xs) (sched k % (x :: xs).length)
        (Nat.mod_lt _ (by simp))
      rw [hpick] at this
      simp at this
  | case2 k pending pre t post hpick ih =>
    intro hnd
    have hdecomp := pickAt_eq_append _ _ _ _ _ hpick
    subst hdecomp
    have hnd' : ((pre ++ post).map Prod.fst).Nodup := by
      refine List.Nodup.sublist ?_ hnd
      refine List.Sublist.map _ ?_
      exact List.Sublist.append_left (List.sublist_cons_self _ _) pre
    rw [mergeLoop_done sched k _ pre post t hpick, ih hnd']
    simp only [eventsOf_append, eventsOf_cons]
    rcases Decidable.em (t = g) with hg | hg
    · subst hg
      have hmap : (pre ++ (t, ([] : List α)) :: post).map Prod.fst
          = pre.map Prod.fst ++ t :: post.map Prod.fst := by simp
      rw [hmap] at hnd
      obtain ⟨h1, h2⟩ := nodup_middle hnd
      rw [eventsOf_eq_nil t pre h1, eventsOf_eq_nil t post h2]
      simp
    · simp [hg]
  | case3 k pending pre t e rest post hpick ih =>
    intro hnd
    have hdecomp := pickAt_eq_append _ _ _ _ _ hpick
    subst hdecomp
    have hmap : (pre ++ (t, e :: rest) :: post).map Prod.fst
        = pre.map Prod.fst ++ t :: post.map Prod.fst := by simp
    have hnd' : ((pre ++ (t, rest) :: post).map Prod.fst).Nodup := by
      have : (pre ++ (t, rest) :: post).map Prod.fst
          = pre.map Prod.fst ++ t :: post.map Prod.fst := by simp
      rw [this, ← hmap]
      exact hnd
    rw [mergeLoop_yield sched k _ pre post t e rest hpick]
    rw [List.filter_cons]
    rw [ih hnd']
    simp only [eventsOf_append, eventsOf_cons]
    rcases Decidable.em (t = g) with hg | hg
    · subst hg
      rw [hmap] at hnd
      obtain ⟨h1, h2⟩ := nodup_middle hnd
      rw [eventsOf_eq_nil t pre h1, eventsOf_eq_nil t post h2]
      simp
    · simp [hg]

/-- Every tagged event in the merged output originates from an entry of
the initial pending map: its tag is that entry's generator id and the
event is one that generator had yet to yield. -/
theorem mergeLoop_mem {α : Type _} (sched : Nat → Nat) :
    ∀ (k : Nat) (pending : List (Nat × List α)) (q : Nat × α),
      q ∈ mergeLoop sched k pending →
        ∃ p ∈ pending, q.1 = p.1 ∧ q.2 ∈ p.2 := by
  intro k pending
  induction k, pending using mergeLoop.induct sched with
  | case1 k pending hpick =>
    intro q hq
    rw [mergeLoop.eq_def] at hq
    rw [hpick] at hq
    simp at hq
  | case2 k pending pre t post hpick ih =>
    intro q hq
    have hdecomp := pickAt_eq_append _ _ _ _ _ hpick
    subst hdecomp
    rw [mergeLoop_done sched k _ pre post t hpick] at hq
    obtain ⟨p, hp, h1, h2⟩ := ih q hq
    refine ⟨p, ?_, h1, h2⟩
    rcases List.mem_append.mp hp with h | h
    · exact List.mem_append.mpr (Or.inl h)
    · exact List.mem_append.mpr (Or.inr (List.mem_cons_of_mem _ h))
  | case3 k pending pre t e rest post hpick ih =>
    intro q hq
    have hdecomp := pickAt_eq_append _ _ _ _ _ hpick
    subst hdecomp
    rw [mergeLoop_yield sched k _ pre post t e rest hpick] at hq
    rcases List.mem_cons.mp hq with h | h
    · subst h
      exact ⟨(t, e :: rest), by simp, rfl, by simp⟩
    · obtain ⟨p, hp, h1, h2⟩ := ih q h
      rcases List.mem_append.mp hp with hmem | hmem
      · exact ⟨p, List.mem_append.mpr (Or.inl hmem), h1, h2⟩
      · rcases List.mem_cons.mp hmem with hmem | hmem
        · subst hmem
          exact ⟨(t, e :: rest), by simp, h1, List.mem_cons_of_mem _ h2⟩
        · exact ⟨p, by simp [hmem], h1, h2⟩

/-! ## Step-indexed view of the merge loop (for the map invariants)

`mergeStep` performs one iteration of the `while (pendingPromises.size
> 0)` loop on the pending map alone; `mergeTrace` is the sequence of
map states the loop passes through.  A generator's single entry is
replaced (after its event is enqueued) or deleted (when its result is
`done`) in the same iteration in which its promise resolved; no second
entry for a generator is ever created. -/

/-- One iteration of the merge loop, acting on the pending map. -/
def mergeStep {α : Type _} (sched : Nat → Nat) (k : Nat)
    (pending : List (Nat × List α)) : List (Nat × List α) :=
  match pickAt pending (sched k % pending.length) with
  | none => []
  | some (pre, (_, []), post) => pre ++ post
  | some (pre, (g, _ :: rest), post) => pre ++ (g, rest) :: post

/-- The pending map after `n` iterations of the merge loop. -/
def mergeTrace {α : Type _} (sched : Nat → Nat) (gens : List (Nat × List α)) :
    Nat → List (Nat × List α)
  | 0 => gens
  | n + 1 => mergeStep sched n (mergeTrace sched gens n)

theorem mergeStep_keys_sublist {α : Type _} (sched : Nat → Nat) (k : Nat)
    (p : List (Nat × List α)) :
    ((mergeStep sched k p).map Prod.fst).Sublist (p.map Prod.fst) := by
  unfold mergeStep
  split
  · simp
  · rename_i pre g post hpick
    have hdecomp := pickAt_eq_append _ _ _ _ _ hpick
    subst hdecomp
    refine List.Sublist.map _ ?_
    exact List.Sublist.append_left (List.sublist_cons_self _ _) pre
  · rename_i pre g e rest post hpick
    have hdecomp := pickAt_eq_append _ _ _ _ _ hpick
    subst hdecomp
    have : (pre ++ (g, rest) :: post).map Prod.fst
        = (pre ++ (g, e :: rest) :: post).map Prod.fst := by simp
    rw [this]

theorem mergeStep_nil {α : Type _} (sched : Nat → Nat) (k : Nat) :
    mergeStep (α := α) sched k [] = [] := by
  unfold mergeStep
  simp [pickAt]

theorem one_le_pendingMeasure {α : Type _} (p : List (Nat × List α)) (hp : p ≠ []) :
    1 ≤ pendingMeasure p := by
  cases p with
  | nil => simp at hp
  | cons x xs => rw [pendingMeasure_cons]; omega

theorem mergeStep_measure_lt {α : Type _} (sched : Nat → Nat) (k : Nat)
    (p : List (Nat × List α)) (hp : p ≠ []) :
    pendingMeasure (mergeStep sched k p) < pendingMeasure p := by
  unfold mergeStep
  split
  · rename_i hpick
    exfalso
    have hlen : 0 < p.length := List.length_pos.mpr hp
    have := pickAt_isSome p (sched k % p.length) (Nat.mod_lt _ hlen)
    rw [hpick] at this
    simp at this
  · rename_i pre g post hpick
    have hdecomp := pickAt_eq_append _ _ _ _ _ hpick
    subst hdecomp
    simp [pendingMeasure_append, pendingMeasure_cons]
  · rename_i pre g e rest post hpick
    have hdecomp := pickAt_eq_append _ _ _ _ _ hpick
    subst hdecomp
    simp [pendingMeasure_append, pendingMeasure_cons]

theorem mergeTrace_measure {α : Type _} (sched : Nat → Nat)
    (gens : List (Nat × List α)) :
    ∀ n, mergeTrace sched gens n = [] ∨
      pendingMeasure (mergeTrace sched gens n) + n ≤ pendingMeasure gens := by
  intro n
  induction n with
  | zero => right; simp [mergeTrace]
  | succ n ih =>
    rcases ih with h | h
    · left
      simp [mergeTrace, h, mergeStep_nil]
    · rcases eq_or_ne (mergeTrace sched gens n) [] with he | he
      · left
        simp [mergeTrace, he, mergeStep_nil]
      · right
        have := mergeStep_measure_lt sched n (mergeTrace sched gens n) he
        have : pendingMeasure (mergeTrace sched gens (n + 1))
            < pendingMeasure (mergeTrace sched gens n) := by
          simpa [mergeTrace] using this
        omega

/-! ## The naive merge formulation (`src/unnamed/part_002`, POST)

The earlier version of the route rebuilt, on **every** loop iteration,
a fresh `gen.next()` promise for **every** active generator, and raced
those.  JavaScript async generators serialise their `next()` calls, so
the i-th `next()` call issued to a generator resolves with its i-th
event; a promise that loses the race is simply discarded together with
the event it consumed.  Because every active generator receives one
`next()` call per iteration, after `k` iterations every still-active
generator has consumed its first `k` events, of which only the
race-winning ones were ever enqueued.  `naiveLoop` models this: at
iteration `k` the scheduled winner emits its event of index `k` (the
value of the `next()` call issued this iteration), or is removed when
its sequence is exhausted at or before index `k`. -/

/-- Termination measure for the naive loop. -/
def naiveMeasure {α : Type _} (k : Nat) (active : List (Nat × List α)) : Nat :=
  active.length + (active.map (fun e => e.2.length + 1 - k)).sum

theorem naive_sum_succ_le {α : Type _} (l : List (Nat × List α)) (k : Nat) :
    (l.map (fun e => e.2.length + 1 - (k + 1))).sum
      ≤ (l.map (fun e => e.2.length + 1 - k)).sum :=
  List.sum_le_sum (fun i _ => by omega)

/-- The naive merge loop of the earlier route version: every iteration
issues a fresh `next()` to every active generator and races them; only
the winner's result is inspected.  The winner of iteration `k` yields
its event of index `k` (events of lost races are silently dropped), or
is removed if its sequence has at most `k` events. -/
def naiveLoop {α : Type _} (sched : Nat → Nat) (k : Nat)
    (active : List (Nat × List α)) : List (Nat × α) :=
  match hpick : pickAt active (sched k % active.length) with
  | none => []
  | some (pre, (g, evs), post) =>
      if hk : evs.length ≤ k then naiveLoop sched (k + 1) (pre ++ post)
      else (g, evs.get ⟨k, by omega⟩) :: naiveLoop sched (k + 1) active
termination_by naiveMeasure k active
decreasing_by
  · have hdecomp := pickAt_eq_append _ _ _ _ _ hpick
    subst hdecomp
    have h1 := naive_sum_succ_le (pre ++ post) k
    simp only [naiveMeasure, List.map_append, List.sum_append, List.length_append,
      List.map_cons, List.sum_cons, List.length_cons] at h1 ⊢
    omega
  · have hdecomp := pickAt_eq_append _ _ _ _ _ hpick
    subst hdecomp
    have h1 := naive_sum_succ_le pre k
    have h2 := naive_sum_succ_le post k
    simp only [naiveMeasure, List.map_append, List.sum_append, List.length_append,
      List.map_cons, List.sum_cons, List.length_cons] at h1 h2 ⊢
    omega

theorem naiveLoop_remove {α : Type _} (sched : Nat → Nat) (k : Nat)
    (active pre post : List (Nat × List α)) (g : Nat) (evs : List α)
    (hpick : pickAt active (sched k % active.length) = some (pre, (g, evs), post))
    (hk : evs.length ≤ k) :
    naiveLoop sched k active = naiveLoop sched (k + 1) (pre ++ post) := by
  conv_lhs => rw [naiveLoop.eq_def]
  split
  · simp_all
  · rename_i h
    rw [hpick] at h
    cases h
    rw [dif_pos hk]

theorem naiveLoop_emit {α : Type _} (sched : Nat → Nat) (k : Nat)
    (active pre post : List (Nat × List α)) (g : Nat) (evs : List α)
    (hpick : pickAt active (sched k % active.length) = some (pre, (g, evs), post))
    (hk : k < evs.length) :
    naiveLoop sched k active = (g, evs.get ⟨k, hk⟩) :: naiveLoop sched (k + 1) active := by
  conv_lhs => rw [naiveLoop.eq_def]
  split
  · simp_all
  · rename_i h
    rw [hpick] at h
    cases h
    rw [dif_neg (by omega)]

theorem naiveLoop_nil {α : Type _} (sched : Nat → Nat) (k : Nat) :
    naiveLoop (α := α) sched k [] = [] := by
  conv_lhs => rw [naiveLoop.eq_def]
  simp [pickAt]

/-! ## The producer generator `runSingleDeepResearch` (route.ts 21-119)

The generator iterates over the OpenAI response stream and, per raw
stream event, yields at most one `StreamEvent` (the six `if` branches
test mutually exclusive `event.type` strings).  `RawResponseEvent`
embeds the raw stream events the generator inspects; `otherRaw`
stands for every event type the branches ignore.  Each yielded event's
`timestamp` is `Date.now()` at yield time, modelled by a clock indexed
by the raw event's position. -/

/-- The OpenAI response-stream events inspected by the generator. -/
inductive RawResponseEvent where
  | outputTextDelta (delta : String)
  | outputTextDone (item_id : String)
  | webSearchSearching (item_id : String) (sequence_number : Nat)
  | webSearchCompleted (item_id : String)
  | responseCompleted
  | responseFailed
  | otherRaw
  deriving DecidableEq

/-- The event (if any) the generator yields for one raw stream event,
mirroring the six `if` branches of `runSingleDeepResearch`. -/
def translateRaw (jobId : Nat) (now : Nat) : RawResponseEvent → Option StreamEvent
  | .outputTextDelta d => some (.content jobId d now)
  | .outputTextDone iid => some (.textDone jobId iid now)
  | .webSearchSearching iid sn => some (.webSearchSearching jobId iid sn now)
  | .webSearchCompleted iid => some (.webSearchCompleted jobId iid now)
  | .responseCompleted => some (.jobDone jobId now)
  | .responseFailed => some (.errorEvent jobId "Response failed" now)
  | .otherRaw => none

/-- The full event sequence one generator yields, given the raw stream
it receives: the `for await` loop of `runSingleDeepResearch`.  `n` is
the index of the next raw event, `clock n` the value of `Date.now()`
when it is handled. -/
def runSingleDeepResearch (jobId : Nat) (clock : Nat → Nat) :
    Nat → List RawResponseEvent → List StreamEvent
  | _, [] => []
  | n, r :: rs =>
      match translateRaw jobId (clock n) r with
      | some e => e :: runSingleDeepResearch jobId clock (n + 1) rs
      | none => runSingleDeepResearch jobId clock (n + 1) rs

theorem runSingle_no_complete (jobId : Nat) (clock : Nat → Nat) :
    ∀ (n : Nat) (rs : List RawResponseEvent) (e : StreamEvent),
      e ∈ runSingleDeepResearch jobId clock n rs → e.isComplete = false := by
  intro n rs
  induction rs generalizing n with
  | nil => intro e he; simp [runSingleDeepResearch] at he
  | cons r rs ih =>
    intro e he
    rw [runSingleDeepResearch] at he
    cases r <;> simp only [translateRaw] at he <;>
      first
        | exact ih _ e he
        | (rcases List.mem_cons.mp he with h | h
           · subst h; rfl
           · exact ih _ e h)

theorem runSingle_error_count (jobId : Nat) (clock : Nat → Nat) :
    ∀ (n : Nat) (rs : List RawResponseEvent),
      (runSingleDeepResearch jobId clock n rs).countP (fun e => e.isError)
        = rs.countP (fun r => r == .responseFailed) := by
  intro n rs
  induction rs generalizing n with
  | nil => simp [runSingleDeepResearch]
  | cons r rs ih =>
    rw [runSingleDeepResearch]
    simp only [StreamEvent.isError] at ih
    cases r <;>
      simp [translateRaw, List.countP_cons, ih, StreamEvent.isError]

/-! ## The success path of `POST` (route.ts 139-185)

`postGens` is the initial pending map: one generator per query, keyed
by its index (`queries.map((query, index) => runSingleDeepResearch(query,
index))`), each entry holding the event sequence that generator will
yield for its raw stream.  `postEnqueued` is the full sequence of
events enqueued on the SSE stream during a run in which no pending
promise rejects: the merged events, then the final `complete` event. -/

/-- Initial pending map of `POST`: generator index paired with the
events `runSingleDeepResearch` yields on that job's raw stream. -/
def postGens (rss : List (List RawResponseEvent)) (clock : Nat → Nat → Nat) :
    List (Nat × List StreamEvent) :=
  rss.enum.map (fun p => (p.1, runSingleDeepResearch p.1 (clock p.1) 0 p.2))

theorem postGens_keys_nodup (rss : List (List RawResponseEvent))
    (clock : Nat → Nat → Nat) : ((postGens rss clock).map Prod.fst).Nodup := by
  have : (postGens rss clock).map Prod.fst = rss.enum.map Prod.fst := by
    simp only [postGens, List.map_map]
    rfl
  rw [this, List.enum_map_fst]
  exact List.nodup_range _

/-- All events enqueued on the SSE stream in a non-rejecting run of
`POST`: the merge loop's output (untagged), then the single
`complete` event built after the loop (route.ts 177-184). -/
def postEnqueued (gens : List (Nat × List StreamEvent)) (sched : Nat → Nat)
    (ts : Nat) : List StreamEvent :=
  (mergeLoop sched 0 gens).map Prod.snd ++ [StreamEvent.complete ts]

/-! ## JSON values of the event frames

`POST` writes each event as `JSON.stringify(result.value)`; the client
parses it back with `JSON.parse`.  The JSON objects occurring in the
frames are flat: string and nonnegative-integer fields only.  `JPrim`
and `JObj` model those values; `jsonOfEvent` gives each event's JSON
object with the key order of the object literals in `route.ts`
(`JSON.stringify` preserves insertion order). -/

/-- Primitive JSON values occurring in event objects. -/
inductive JPrim where
  | str (s : String)
  | num (n : Nat)
  deriving DecidableEq

/-- A JSON object: ordered key/value fields. -/
abbrev JObj := List (String × JPrim)

/-- The JSON object `JSON.stringify` serialises for each event, with
the field order of the corresponding object literal in `route.ts`. -/
def jsonOfEvent : StreamEvent → JObj
  | .webSearchSearching j iid sn t =>
      [("type", .str "web_search_searching"), ("job", .num j), ("item_id", .str iid),
        ("sequence_number", .num sn), ("timestamp", .num t)]
  | .webSearchCompleted j iid t =>
      [("type", .str "web_search_completed"), ("job", .num j), ("item_id", .str iid),
        ("timestamp", .num t)]
  | .content j c t =>
      [("type", .str "content"), ("job", .num j), ("content", .str c), ("timestamp", .num t)]
  | .textDone j iid t =>
      [("type", .str "text_done"), ("job", .num j), ("item_id", .str iid), ("timestamp", .num t)]
  | .jobDone j t =>
      [("type", .str "done"), ("job", .num j), ("timestamp", .num t)]
  | .errorEvent j msg t =>
      [("type", .str "error"), ("job", .num j), ("error", .str msg), ("timestamp", .num t)]
  | .complete t =>
      [("type", .str "complete"), ("timestamp", .num t)]

/-- Reading a `StreamEvent` back off its JSON object (the shape the
typed client code assumes after `JSON.parse`). -/
def eventOfJson : JObj → Option StreamEvent
  | [("type", .str "web_search_searching"), ("job", .num j), ("item_id", .str iid),
      ("sequence_number", .num sn), ("timestamp", .num t)] =>
      some (.webSearchSearching j iid sn t)
  | [("type", .str "web_search_completed"), ("job", .num j), ("item_id", .str iid),
      ("timestamp", .num t)] => some (.webSearchCompleted j iid t)
  | [("type", .str "content"), ("job", .num j), ("content", .str c), ("timestamp", .num t)] =>
      some (.content j c t)
  | [("type", .str "text_done"), ("job", .num j), ("item_id", .str iid), ("timestamp", .num t)] =>
      some (.textDone j iid t)
  | [("type", .str "done"), ("job", .num j), ("timestamp", .num t)] => some (.jobDone j t)
  | [("type", .str "error"), ("job", .num j), ("error", .str msg), ("timestamp", .num t)] =>
      some (.errorEvent j msg t)
  | [("type", .str "complete"), ("timestamp", .num t)] => some (.complete t)
  | _ => none

/-- The keys of a JSON object, in order. -/
def jsonKeys (o : JObj) : List String := o.map Prod.fst

/-! ## Serialising (`JSON.stringify`)

`escapeChar` follows the string quoting of `JSON.stringify`: quote and
backslash are escaped, the five control characters with short escapes
use them, every other control character below `0x20` becomes
`\u00XX`, and every other character is copied verbatim.  Numbers in the
frames are nonnegative integers, printed in decimal. -/

/-- `JSON.stringify` escaping of one character. -/
def escapeChar (c : Char) : List Char :=
  if c = Char.ofNat 34 then [Char.ofNat 92, Char.ofNat 34]
  else if c = Char.ofNat 92 then [Char.ofNat 92, Char.ofNat 92]
  else if c = Char.ofNat 8 then [Char.ofNat 92, 'b']
  else if c = Char.ofNat 9 then [Char.ofNat 92, 't']
  else if c = Char.ofNat 10 then [Char.ofNat 92, 'n']
  else if c = Char.ofNat 12 then [Char.ofNat 92, 'f']
  else if c = Char.ofNat 13 then [Char.ofNat 92, 'r']
  else if c.toNat < 32 then
    [Char.ofNat 92, 'u', '0', '0', Nat.digitChar (c.toNat / 16), Nat.digitChar (c.toNat % 16)]
  else [c]

/-- A JSON string literal: quote, escaped characters, quote. -/
def quoteJString (s : String) : List Char :=
  Char.ofNat 34 :: (s.data.flatMap escapeChar ++ [Char.ofNat 34])

/-- Decimal digits of `n`, most significant first; the first argument
is recursion fuel (any amount above `n` gives the digits of `n`). -/
def natCharsAux : Nat → Nat → List Char → List Char
  | 0, _, acc => acc
  | fuel + 1, n, acc =>
      if n < 10 then Nat.digitChar n :: acc
      else natCharsAux fuel (n / 10) (Nat.digitChar (n % 10) :: acc)

/-- Decimal representation of a nonnegative integer. -/
def natChars (n : Nat) : List Char := natCharsAux (n + 1) n []

/-- Serialisation of a primitive JSON value. -/
def stringifyJPrim : JPrim → List Char
  | .str s => quoteJString s
  | .num n => natChars n

/-- Serialisation of an object's fields: `"key":value` joined by commas
(`JSON.stringify` emits no whitespace). -/
def stringifyMembers : List (String × JPrim) → List Char
  | [] => []
  | [(k, v)] => quoteJString k ++ (':' :: stringifyJPrim v)
  | (k, v) :: rest =>
      quoteJString k ++ (':' :: (stringifyJPrim v ++ (',' :: stringifyMembers rest)))

/-- Serialisation of a JSON object. -/
def stringifyJObj (o : JObj) : List Char :=
  Char.ofNat 123 :: (stringifyMembers o ++ [Char.ofNat 125])

/-- One SSE frame as written by `POST`: the fixed marker, the
serialised event JSON, then a double newline. -/
def encodeFrame (e : StreamEvent) : List Char :=
  ("data: ".data ++ stringifyJObj (jsonOfEvent e)) ++ [Char.ofNat 10, Char.ofNat 10]

/-! ## Parsing (`JSON.parse`, on the canonical frame grammar)

The client calls `JSON.parse` on each candidate line.  The frames are
produced by `JSON.stringify`, so the parser below implements the
canonical grammar those frames use - flat objects of string and
nonnegative-integer fields, no whitespace - and rejects everything
else, as `JSON.parse` rejects every truncated or malformed fragment of
such a frame. -/

/-- Value of a hexadecimal digit. -/
def hexVal (c : Char) : Nat :=
  if c.isDigit then c.toNat - 48
  else if 'a' ≤ c ∧ c ≤ 'f' then c.toNat - 97 + 10
  else if 'A' ≤ c ∧ c ≤ 'F' then c.toNat - 65 + 10
  else 0

/-- Whether a character is a hexadecimal digit. -/
def isHexDigitChar (c : Char) : Bool :=
  c.isDigit || decide (97 ≤ c.toNat ∧ c.toNat ≤ 102) || decide (65 ≤ c.toNat ∧ c.toNat ≤ 70)

/-- Parse the body of a JSON string literal (after the opening quote),
returning the decoded characters and the rest of the input. -/
def parseJStringBody : List Char → Option (List Char × List Char)
  | [] => none
  | c :: r =>
    if c = Char.ofNat 34 then some ([], r)
    else if c = Char.ofNat 92 then
      match r with
      | [] => none
      | e :: r2 =>
        if e = Char.ofNat 34 then
          (parseJStringBody r2).map (fun p => (Char.ofNat 34 :: p.1, p.2))
        else if e = Char.ofNat 92 then
          (parseJStringBody r2).map (fun p => (Char.ofNat 92 :: p.1, p.2))
        else if e = '/' then (parseJStringBody r2).map (fun p => ('/' :: p.1, p.2))
        else if e = 'b' then (parseJStringBody r2).map (fun p => (Char.ofNat 8 :: p.1, p.2))
        else if e = 'f' then (parseJStringBody r2).map (fun p => (Char.ofNat 12 :: p.1, p.2))
        else if e = 'n' then (parseJStringBody r2).map (fun p => (Char.ofNat 10 :: p.1, p.2))
        else if e = 'r' then (parseJStringBody r2).map (fun p => (Char.ofNat 13 :: p.1, p.2))
        else if e = 't' then (parseJStringBody r2).map (fun p => (Char.ofNat 9 :: p.1, p.2))
        else if e = 'u' then
          match r2 with
          | h1 :: h2 :: h3 :: h4 :: r3 =>
            if isHexDigitChar h1 && isHexDigitChar h2 && isHexDigitChar h3 && isHexDigitChar h4 then
              (parseJStringBody r3).map (fun p =>
                (Char.ofNat (((hexVal h1 * 16 + hexVal h2) * 16 + hexVal h3) * 16 + hexVal h4)
                  :: p.1, p.2))
            else none
          | _ => none
        else none
    else if c.toNat < 32 then none
    else (parseJStringBody r).map (fun p => (c :: p.1, p.2))

/-- Parse a run of decimal digits into a number (JSON integer). -/
def parseNatAux : List Char → Nat → Nat × List Char
  | [], acc => (acc, [])
  | c :: cs, acc =>
      if c.isDigit then parseNatAux cs (acc * 10 + (c.toNat - 48)) else (acc, c :: cs)

/-- Parse one primitive JSON value (string or number). -/
def parseJPrim : List Char → Option (JPrim × List Char)
  | [] => none
  | c :: r =>
    if c = Char.ofNat 34 then
      (parseJStringBody r).map (fun p => (JPrim.str (String.mk p.1), p.2))
    else if c.isDigit then
      some (JPrim.num (parseNatAux (c :: r) 0).1, (parseNatAux (c :: r) 0).2)
    else none

/-- Parse the nonempty member list of an object together with its
closing brace.  The first argument is recursion fuel. -/
def parseMembers : Nat → List Char → Option (List (String × JPrim) × List Char)
  | 0, _ => none
  | fuel + 1, s =>
    match s with
    | c :: r =>
      if c = Char.ofNat 34 then
        match parseJStringBody r with
        | none => none
        | some (k, r1) =>
          match r1 with
          | ':' :: r2 =>
            match parseJPrim r2 with
            | none => none
            | some (v, r3) =>
              match r3 with
              | d :: r4 =>
                if d = ',' then
                  (parseMembers fuel r4).map (fun p => ((String.mk k, v) :: p.1, p.2))
                else if d = Char.ofNat 125 then some ([(String.mk k, v)], r4)
                else none
              | [] => none
          | _ => none
      else none
    | [] => none

/-- Parse a flat JSON object, returning it and the rest of the input. -/
def parseJObj : List Char → Option (List (String × JPrim) × List Char)
  | c :: r =>
    if c = Char.ofNat 123 then
      match r with
      | d :: r2 => if d = Char.ofNat 125 then some ([], r2) else parseMembers r.length r
      | [] => none
    else none
  | [] => none

/-- `JSON.parse` of a whole candidate line: succeeds iff the entire
line is one canonical JSON object. -/
def parseJson (s : List Char) : Option JObj :=
  match parseJObj s with
  | some (o, []) => some o
  | _ => none

/-! ## The client decoder (`startAllResearch`)

Per received chunk the client decodes the bytes to text, splits the
text on single newlines, and for each line beginning with the marker
strips the six-character prefix and parses the rest, skipping the
special `[DONE]` value and any line that fails to parse.  There is no
carry-over state between chunks. -/

/-- `split` on the newline character, keeping empty pieces. -/
def splitOnNewline : List Char → List (List Char)
  | [] => [[]]
  | c :: rest =>
    if c = Char.ofNat 10 then [] :: splitOnNewline rest
    else
      match splitOnNewline rest with
      | [] => [[c]]
      | l :: ls => (c :: l) :: ls

/-- Whether the second list begins with the first. -/
def startsWithChars : List Char → List Char → Bool
  | [], _ => true
  | _ :: _, [] => false
  | p :: ps, c :: cs => p == c && startsWithChars ps cs

/-- Decoding of one transport chunk, exactly as the reader loop of
`startAllResearch` handles it: split on newlines, take lines starting
with the marker, drop the six-character prefix, skip `[DONE]`,
`JSON.parse` the rest and skip lines that fail to parse. -/
def decodeChunk (chunk : List Char) : List JObj :=
  (splitOnNewline chunk).filterMap (fun line =>
    if startsWithChars ("data: ".data) line then
      let d := line.drop 6
      if d = ("[DONE]".data) then none else parseJson d
    else none)

/-- Decoding of a whole run received as a sequence of chunks: each
chunk is decoded independently (the decoder keeps no state across
chunks). -/
def decodeRun (chunks : List (List Char)) : List JObj :=
  chunks.flatMap decodeChunk

/-! ## Round-trip lemmas: numbers -/

theorem natCharsAux_append :
    ∀ (fuel n : Nat) (acc : List Char),
      natCharsAux fuel n acc = natCharsAux fuel n [] ++ acc := by
  intro fuel
  induction fuel with
  | zero => intro n acc; simp [natCharsAux]
  | succ fuel ih =>
    intro n acc
    rw [natCharsAux, natCharsAux]
    by_cases h : n < 10
    · simp [h]
    · rw [if_neg h, if_neg h, ih (n / 10) (Nat.digitChar (n % 10) :: acc),
        ih (n / 10) [Nat.digitChar (n % 10)]]
      simp

theorem natCharsAux_fuel :
    ∀ (f1 f2 n : Nat) (acc : List Char), n < f1 → n < f2 →
      natCharsAux f1 n acc = natCharsAux f2 n acc := by
  intro f1
  induction f1 with
  | zero => intro f2 n acc h1 _; omega
  | succ f1 ih =>
    intro f2 n acc h1 h2
    cases f2 with
    | zero => omega
    | succ f2 =>
      rw [natCharsAux, natCharsAux]
      by_cases h : n < 10
      · simp [h]
      · rw [if_neg h, if_neg h]
        have hd : n / 10 < n := Nat.div_lt_self (by omega) (by omega)
        exact ih f2 (n / 10) _ (by omega) (by omega)

theorem natChars_lt10 (n : Nat) (h : n < 10) : natChars n = [Nat.digitChar n] := by
  rw [natChars, natCharsAux, if_pos h]

theorem natChars_ge10 (n : Nat) (h : 10 ≤ n) :
    natChars n = natChars (n / 10) ++ [Nat.digitChar (n % 10)] := by
  rw [natChars, natCharsAux, if_neg (by omega)]
  rw [natCharsAux_append]
  have hd : n / 10 < n := Nat.div_lt_self (by omega) (by omega)
  rw [natCharsAux_fuel n (n / 10 + 1) (n / 10) [] (by omega) (by omega)]
  rfl

theorem digitChar_isDigit (m : Nat) (h : m < 10) : (Nat.digitChar m).isDigit = true := by
  interval_cases m <;> decide

theorem digitChar_val (m : Nat) (h : m < 10) : (Nat.digitChar m).toNat - 48 = m := by
  interval_cases m <;> decide

theorem natChars_digits (n : Nat) : ∀ c ∈ natChars n, c.isDigit = true := by
  induction n using Nat.strong_induction_on with
  | _ n ih =>
    by_cases h : n < 10
    · rw [natChars_lt10 n h]
      intro c hc
      rw [List.mem_singleton] at hc
      subst hc
      exact digitChar_isDigit n h
    · rw [natChars_ge10 n (by omega)]
      intro c hc
      rcases List.mem_append.mp hc with hc | hc
      · exact ih (n / 10) (Nat.div_lt_self (by omega) (by omega)) c hc
      · rw [List.mem_singleton] at hc
        subst hc
        exact digitChar_isDigit _ (Nat.mod_lt _ (by omega))

theorem natChars_ne_nil (n : Nat) : natChars n ≠ [] := by
  by_cases h : n < 10
  · rw [natChars_lt10 n h]; simp
  · rw [natChars_ge10 n (by omega)]; simp

/-- The decimal value accumulated by the digit-parsing loop. -/
def digitsVal (acc : Nat) (ds : List Char) : Nat :=
  ds.foldl (fun a c => a * 10 + (c.toNat - 48)) acc

theorem parseNatAux_digits :
    ∀ (ds : List Char) (rest : List Char) (acc : Nat),
      (∀ c ∈ ds, c.isDigit = true) →
      (∀ c, rest.head? = some c → c.isDigit = false) →
      parseNatAux (ds ++ rest) acc = (digitsVal acc ds, rest) := by
  intro ds
  induction ds with
  | nil =>
    intro rest acc _ hrest
    cases rest with
    | nil => simp [parseNatAux, digitsVal]
    | cons c cs =>
      have := hrest c (by simp)
      simp [parseNatAux, this, digitsVal]
  | cons d ds ih =>
    intro rest acc hds hrest
    have hd : d.isDigit = true := hds d (by simp)
    rw [List.cons_append, parseNatAux, if_pos hd]
    rw [ih rest _ (fun c hc => hds c (by simp [hc])) hrest]
    simp [digitsVal]

theorem digitsVal_natChars (n : Nat) :
    ∀ acc, digitsVal acc (natChars n) = acc * 10 ^ (natChars n).length + n := by
  induction n using Nat.strong_induction_on with
  | _ n ih =>
    intro acc
    by_cases h : n < 10
    · rw [natChars_lt10 n h]
      simp [digitsVal, digitChar_val n h]
    · rw [natChars_ge10 n (by omega)]
      rw [digitsVal, List.foldl_append]
      have hrec := ih (n / 10) (Nat.div_lt_self (by omega) (by omega)) acc
      rw [digitsVal] at hrec
      rw [hrec]
      simp only [List.foldl_cons, List.foldl_nil, List.length_append,
        List.length_singleton]
      rw [digitChar_val _ (Nat.mod_lt _ (by omega))]
      have : acc * 10 ^ ((natChars (n / 10)).length + 1)
          = acc * 10 ^ (natChars (n / 10)).length * 10 := by ring
      rw [this]
      have hnm := Nat.div_add_mod n 10
      omega

theorem parseNatAux_natChars (n : Nat) (rest : List Char)
    (hrest : ∀ c, rest.head? = some c → c.isDigit = false) :
    parseNatAux (natChars n ++ rest) 0 = (n, rest) := by
  rw [parseNatAux_digits (natChars n) rest 0 (natChars_digits n) hrest]
  rw [digitsVal_natChars]
  simp

/-! ## Round-trip lemmas: strings -/

theorem hexDigitChar_isHex (m : Nat) (h : m < 16) :
    isHexDigitChar (Nat.digitChar m) = true := by
  interval_cases m <;> decide

theorem hexVal_digitChar (m : Nat) (h : m < 16) : hexVal (Nat.digitChar m) = m := by
  interval_cases m <;> decide

theorem parseJStringBody_escape :
    ∀ (cs : List Char) (rest : List Char),
      parseJStringBody (cs.flatMap escapeChar ++ (Char.ofNat 34 :: rest)) = some (cs, rest) := by
  intro cs
  induction cs with
  | nil =>
    intro rest
    rw [parseJStringBody.eq_def]
    simp
  | cons c cs ih =>
    intro rest
    rw [List.flatMap_cons, List.append_assoc]
    by_cases h1 : c = Char.ofNat 34
    · subst h1
      rw [show escapeChar (Char.ofNat 34) = [Char.ofNat 92, Char.ofNat 34] from by decide]
      rw [List.cons_append, List.cons_append, parseJStringBody.eq_def]
      simp [ih]
    by_cases h2 : c = Char.ofNat 92
    · subst h2
      rw [show escapeChar (Char.ofNat 92) = [Char.ofNat 92, Char.ofNat 92] from by decide]
      rw [List.cons_append, List.cons_append, parseJStringBody.eq_def]
      simp [ih]
    by_cases h3 : c = Char.ofNat 8
    · subst h3
      rw [show escapeChar (Char.ofNat 8) = [Char.ofNat 92, 'b'] from by decide]
      rw [List.cons_append, List.cons_append, parseJStringBody.eq_def]
      simp [ih]
    by_cases h4 : c = Char.ofNat 9
    · subst h4
      rw [show escapeChar (Char.ofNat 9) = [Char.ofNat 92, 't'] from by decide]
      rw [List.cons_append, List.cons_append, parseJStringBody.eq_def]
      simp [ih]
    by_cases h5 : c = Char.ofNat 10
    · subst h5
      rw [show escapeChar (Char.ofNat 10) = [Char.ofNat 92, 'n'] from by decide]
      rw [List.cons_append, List.cons_append, parseJStringBody.eq_def]
      simp [ih]
    by_cases h6 : c = Char.ofNat 12
    · subst h6
      rw [show escapeChar (Char.ofNat 12) = [Char.ofNat 92, 'f'] from by decide]
      rw [List.cons_append, List.cons_append, parseJStringBody.eq_def]
      simp [ih]
    by_cases h7 : c = Char.ofNat 13
    · subst h7
      rw [show escapeChar (Char.ofNat 13) = [Char.ofNat 92, 'r'] from by decide]
      rw [List.cons_append, List.cons_append, parseJStringBody.eq_def]
      simp [ih]
    by_cases h8 : c.toNat < 32
    · have hd1 : isHexDigitChar (Nat.digitChar (c.toNat / 16)) = true :=
        hexDigitChar_isHex _ (by omega)
      have hd2 : isHexDigitChar (Nat.digitChar (c.toNat % 16)) = true :=
        hexDigitChar_isHex _ (by omega)
      have hv1 : hexVal (Nat.digitChar (c.toNat / 16)) = c.toNat / 16 :=
        hexVal_digitChar _ (by omega)
      have hv2 : hexVal (Nat.digitChar (c.toNat % 16)) = c.toNat % 16 :=
        hexVal_digitChar _ (by omega)
      have hval : ((hexVal '0' * 16 + hexVal '0') * 16 + c.toNat / 16) * 16 + c.toNat % 16
          = c.toNat := by
        have h0 : hexVal '0' = 0 := by decide
        rw [h0]
        omega
      have hesc : escapeChar c = [Char.ofNat 92, 'u', '0', '0',
          Nat.digitChar (c.toNat / 16), Nat.digitChar (c.toNat % 16)] := by
        rw [escapeChar, if_neg h1, if_neg h2, if_neg h3, if_neg h4, if_neg h5, if_neg h6,
          if_neg h7, if_pos h8]
      have hz : isHexDigitChar '0' = true := by decide
      rw [hesc, List.cons_append, List.cons_append, List.cons_append, List.cons_append,
        List.cons_append, List.cons_append, parseJStringBody.eq_def]
      simp [hd1, hd2, hv1, hv2, hval, hz, Char.ofNat_toNat, ih]
    · have hesc : escapeChar c = [c] := by
        rw [escapeChar, if_neg h1, if_neg h2, if_neg h3, if_neg h4, if_neg h5, if_neg h6,
          if_neg h7, if_neg h8]
      rw [hesc, List.singleton_append]
      rw [parseJStringBody.eq_def]
      simp [h1, h2, h8, ih]

/-! ## Round-trip lemmas: primitive values, objects, whole frames -/

theorem string_mk_data (s : String) : String.mk s.data = s := by
  cases s
  rfl

theorem quoteJString_cons (s : String) (rest : List Char) :
    quoteJString s ++ rest
      = Char.ofNat 34 :: (s.data.flatMap escapeChar ++ (Char.ofNat 34 :: rest)) := by
  simp [quoteJString]

theorem parseJPrim_str (s : String) (rest : List Char) :
    parseJPrim (quoteJString s ++ rest) = some (.str s, rest) := by
  rw [quoteJString_cons, parseJPrim.eq_def]
  simp [parseJStringBody_escape, string_mk_data]

theorem parseJPrim_num (n : Nat) (rest : List Char)
    (hrest : ∀ c, rest.head? = some c → c.isDigit = false) :
    parseJPrim (natChars n ++ rest) = some (.num n, rest) := by
  cases hnc : natChars n with
  | nil => exact absurd hnc (natChars_ne_nil n)
  | cons c cs =>
    have hcd : c.isDigit = true := natChars_digits n c (by rw [hnc]; simp)
    have hcq : ¬ c = Char.ofNat 34 := by
      intro heq
      rw [heq] at hcd
      exact absurd hcd (by decide)
    have hin : c :: (cs ++ rest) = natChars n ++ rest := by rw [hnc]; simp
    rw [List.cons_append, parseJPrim.eq_def]
    simp [hcq, hcd, hin, parseNatAux_natChars n rest hrest]

theorem parseJPrim_stringify (v : JPrim) (rest : List Char)
    (hrest : ∀ c, rest.head? = some c → c.isDigit = false) :
    parseJPrim (stringifyJPrim v ++ rest) = some (v, rest) := by
  cases v with
  | str s => exact parseJPrim_str s rest
  | num n => exact parseJPrim_num n rest hrest

theorem parseMembers_stringify :
    ∀ (o : List (String × JPrim)) (fuel : Nat) (rest : List Char),
      o ≠ [] → o.length < fuel →
      parseMembers fuel (stringifyMembers o ++ (Char.ofNat 125 :: rest)) = some (o, rest) := by
  intro o
  induction o with
  | nil => intro fuel rest h _; exact absurd rfl h
  | cons kv tail ih =>
    intro fuel rest _ hfuel
    obtain ⟨k, v⟩ := kv
    cases fuel with
    | zero => omega
    | succ fuel =>
      cases tail with
      | nil =>
        rw [show stringifyMembers [(k, v)] ++ (Char.ofNat 125 :: rest)
            = Char.ofNat 34 :: (k.data.flatMap escapeChar ++ (Char.ofNat 34 ::
              (':' :: (stringifyJPrim v ++ (Char.ofNat 125 :: rest))))) from by
          simp [stringifyMembers, quoteJString]]
        rw [parseMembers.eq_def]
        have hv := parseJPrim_stringify v (Char.ofNat 125 :: rest)
          (by intro c hc; simp at hc; rw [← hc]; decide)
        simp [parseJStringBody_escape, hv, string_mk_data]
      | cons y ytail =>
        rw [show stringifyMembers ((k, v) :: y :: ytail) ++ (Char.ofNat 125 :: rest)
            = Char.ofNat 34 :: (k.data.flatMap escapeChar ++ (Char.ofNat 34 ::
              (':' :: (stringifyJPrim v ++ (',' ::
                (stringifyMembers (y :: ytail) ++ (Char.ofNat 125 :: rest))))))) from by
          simp [stringifyMembers, quoteJString]]
        rw [parseMembers.eq_def]
        have hv := parseJPrim_stringify v
          (',' :: (stringifyMembers (y :: ytail) ++ (Char.ofNat 125 :: rest)))
          (by intro c hc; simp at hc; rw [← hc]; decide)
        have hrec := ih fuel rest (by simp) (by simp at hfuel ⊢; omega)
        simp [parseJStringBody_escape, hv, hrec, string_mk_data]

theorem stringifyMembers_one (k : String) (v : JPrim) :
    stringifyMembers [(k, v)] = quoteJString k ++ (':' :: stringifyJPrim v) := by
  rw [stringifyMembers]

theorem stringifyMembers_cons2 (k : String) (v : JPrim) (y : String × JPrim)
    (ytail : List (String × JPrim)) :
    stringifyMembers ((k, v) :: y :: ytail)
      = quoteJString k ++ (':' :: (stringifyJPrim v
          ++ (',' :: stringifyMembers (y :: ytail)))) := by
  rw [stringifyMembers]
  simp

theorem quoteJString_length (s : String) : 2 ≤ (quoteJString s).length := by
  simp [quoteJString]

theorem stringifyMembers_length :
    ∀ o : List (String × JPrim), o.length ≤ (stringifyMembers o).length := by
  intro o
  induction o with
  | nil => simp [stringifyMembers]
  | cons x tail ih =>
    obtain ⟨k, v⟩ := x
    cases tail with
    | nil =>
      have h1 := quoteJString_length k
      rw [stringifyMembers_one]
      simp at h1 ⊢
      omega
    | cons y ytail =>
      have h1 := quoteJString_length k
      rw [stringifyMembers_cons2]
      simp at h1 ih ⊢
      omega

theorem parseJObj_stringify (o : JObj) (rest : List Char) :
    parseJObj (stringifyJObj o ++ rest) = some (o, rest) := by
  rw [show stringifyJObj o ++ rest
      = Char.ofNat 123 :: (stringifyMembers o ++ (Char.ofNat 125 :: rest)) from by
    simp [stringifyJObj]]
  rw [parseJObj.eq_def]
  cases o with
  | nil => simp [stringifyMembers]
  | cons m ms =>
    obtain ⟨k, v⟩ := m
    have hhead : ∃ t, stringifyMembers ((k, v) :: ms) = Char.ofNat 34 :: t := by
      cases ms with
      | nil => exact ⟨_, by rw [stringifyMembers_one, quoteJString_cons]⟩
      | cons y ytail => exact ⟨_, by rw [stringifyMembers_cons2, quoteJString_cons]⟩
    obtain ⟨t, ht⟩ := hhead
    have hlen : ((k, v) :: ms).length
        < (stringifyMembers ((k, v) :: ms) ++ (Char.ofNat 125 :: rest)).length := by
      have := stringifyMembers_length ((k, v) :: ms)
      simp at this ⊢
      omega
    have hparse := parseMembers_stringify ((k, v) :: ms)
      ((stringifyMembers ((k, v) :: ms) ++ (Char.ofNat 125 :: rest)).length) rest
      (by simp) hlen
    rw [ht] at hparse ⊢
    rw [List.cons_append] at hparse
    simp only [parseJObj.eq_def]
    rw [show (Char.ofNat 34 :: t ++ Char.ofNat 125 :: rest : List Char)
        = Char.ofNat 34 :: (t ++ Char.ofNat 125 :: rest) from by simp]
    simp only [List.cons_append]
    have hfl : (Char.ofNat 34 :: (t ++ Char.ofNat 125 :: rest)).length
        = t.length + (rest.length + 1) + 1 := by
      simp only [List.length_cons, List.length_append]
    rw [hfl] at hparse
    simp [hparse]

theorem parseJson_stringify (o : JObj) : parseJson (stringifyJObj o) = some o := by
  have h : parseJObj (stringifyJObj o) = some (o, []) := by
    have := parseJObj_stringify o []
    simpa using this
  simp [parseJson, h]

/-! ## Frames contain no raw newline, and decode whole -/

theorem digitChar_ne_newline (m : Nat) (hm : m < 16) :
    Nat.digitChar m ≠ Char.ofNat 10 := by
  interval_cases m <;> decide

theorem isDigit_ne_newline (c : Char) (h : c.isDigit = true) : c ≠ Char.ofNat 10 := by
  intro heq
  rw [heq] at h
  exact absurd h (by decide)

theorem escapeChar_no_newline (c : Char) :
    ∀ c2 ∈ escapeChar c, c2 ≠ Char.ofNat 10 := by
  intro c2 hc2
  rw [escapeChar] at hc2
  split_ifs at hc2 with h1 h2 h3 h4 h5 h6 h7 h8
  · simp only [List.mem_cons, List.not_mem_nil, or_false] at hc2
    rcases hc2 with h | h <;> subst h <;> decide
  · simp only [List.mem_cons, List.not_mem_nil, or_false] at hc2
    rcases hc2 with h | h <;> subst h <;> decide
  · simp only [List.mem_cons, List.not_mem_nil, or_false] at hc2
    rcases hc2 with h | h <;> subst h <;> decide
  · simp only [List.mem_cons, List.not_mem_nil, or_false] at hc2
    rcases hc2 with h | h <;> subst h <;> decide
  · simp only [List.mem_cons, List.not_mem_nil, or_false] at hc2
    rcases hc2 with h | h <;> subst h <;> decide
  · simp only [List.mem_cons, List.not_mem_nil, or_false] at hc2
    rcases hc2 with h | h <;> subst h <;> decide
  · simp only [List.mem_cons, List.not_mem_nil, or_false] at hc2
    rcases hc2 with h | h <;> subst h <;> decide
  · simp only [List.mem_cons, List.not_mem_nil, or_false] at hc2
    rcases hc2 with h | h | h | h | h | h
    · subst h; decide
    · subst h; decide
    · subst h; decide
    · subst h; decide
    · subst h; exact digitChar_ne_newline _ (by omega)
    · subst h; exact digitChar_ne_newline _ (by omega)
  · simp only [List.mem_cons, List.not_mem_nil, or_false] at hc2
    subst hc2
    intro heq
    rw [heq] at h8
    exact h8 (by decide)

theorem quoteJString_no_newline (s : String) :
    ∀ c ∈ quoteJString s, c ≠ Char.ofNat 10 := by
  intro c hc
  rw [quoteJString] at hc
  rcases List.mem_cons.mp hc with h | h
  · subst h; decide
  rcases List.mem_append.mp h with h | h
  · obtain ⟨c0, _, hmem⟩ := List.mem_flatMap.mp h
    exact escapeChar_no_newline c0 c hmem
  · rw [List.mem_singleton] at h
    subst h; decide

theorem natChars_no_newline (n : Nat) :
    ∀ c ∈ natChars n, c ≠ Char.ofNat 10 := by
  intro c hc
  exact isDigit_ne_newline c (natChars_digits n c hc)

theorem stringifyJPrim_no_newline (v : JPrim) :
    ∀ c ∈ stringifyJPrim v, c ≠ Char.ofNat 10 := by
  intro c hc
  cases v with
  | str s => exact quoteJString_no_newline s c hc
  | num n => exact natChars_no_newline n c hc

theorem stringifyMembers_no_newline :
    ∀ (o : List (String × JPrim)), ∀ c ∈ stringifyMembers o, c ≠ Char.ofNat 10 := by
  intro o
  induction o with
  | nil => intro c hc; rw [stringifyMembers] at hc; simp at hc
  | cons x tail ih =>
    obtain ⟨k, v⟩ := x
    intro c hc
    cases tail with
    | nil =>
      rw [stringifyMembers_one] at hc
      rcases List.mem_append.mp hc with h | h
      · exact quoteJString_no_newline k c h
      rcases List.mem_cons.mp h with h | h
      · subst h; decide
      · exact stringifyJPrim_no_newline v c h
    | cons y ytail =>
      rw [stringifyMembers_cons2] at hc
      rcases List.mem_append.mp hc with h | h
      · exact quoteJString_no_newline k c h
      rcases List.mem_cons.mp h with h | h
      · subst h; decide
      rcases List.mem_append.mp h with h | h
      · exact stringifyJPrim_no_newline v c h
      rcases List.mem_cons.mp h with h | h
      · subst h; decide
      · exact ih c h

theorem stringifyJObj_no_newline (o : JObj) :
    ∀ c ∈ stringifyJObj o, c ≠ Char.ofNat 10 := by
  intro c hc
  rw [stringifyJObj] at hc
  rcases List.mem_cons.mp hc with h | h
  · subst h; decide
  rcases List.mem_append.mp h with h | h
  · exact stringifyMembers_no_newline o c h
  · rw [List.mem_singleton] at h
    subst h; decide

theorem splitOnNewline_single (l : List Char) (h : ∀ c ∈ l, c ≠ Char.ofNat 10) :
    splitOnNewline l = [l] := by
  induction l with
  | nil => rw [splitOnNewline]
  | cons c rest ih =>
    rw [splitOnNewline, if_neg (h c (by simp)), ih (fun c2 hc2 => h c2 (by simp [hc2]))]

theorem splitOnNewline_append (l r : List Char) (h : ∀ c ∈ l, c ≠ Char.ofNat 10) :
    splitOnNewline (l ++ Char.ofNat 10 :: r) = l :: splitOnNewline r := by
  induction l with
  | nil => simp [splitOnNewline]
  | cons c rest ih =>
    rw [List.cons_append, splitOnNewline, if_neg (h c (by simp)),
      ih (fun c2 hc2 => h c2 (by simp [hc2]))]

theorem startsWithChars_append (p r : List Char) :
    startsWithChars p (p ++ r) = true := by
  induction p with
  | nil => rw [startsWithChars]
  | cons c cs ih => rw [List.cons_append, startsWithChars]; simp [ih]

theorem dataMarker_no_newline : ∀ c ∈ ("data: ".data : List Char), c ≠ Char.ofNat 10 := by
  decide

/-- The frame of one event decodes, as one whole chunk, to exactly
that event's JSON object. -/
theorem decodeChunk_encodeFrame (e : StreamEvent) :
    decodeChunk (encodeFrame e) = [jsonOfEvent e] := by
  have hnonl : ∀ c ∈ ("data: ".data ++ stringifyJObj (jsonOfEvent e)), c ≠ Char.ofNat 10 := by
    intro c hc
    rcases List.mem_append.mp hc with h | h
    · exact dataMarker_no_newline c h
    · exact stringifyJObj_no_newline _ c h
  have hsplit : splitOnNewline (encodeFrame e)
      = [("data: ".data ++ stringifyJObj (jsonOfEvent e)), [], []] := by
    rw [show encodeFrame e = ("data: ".data ++ stringifyJObj (jsonOfEvent e))
        ++ (Char.ofNat 10 :: [Char.ofNat 10]) from rfl]
    rw [splitOnNewline_append _ _ hnonl]
    rw [show ([Char.ofNat 10] : List Char) = [] ++ Char.ofNat 10 :: [] from rfl]
    rw [splitOnNewline_append [] [] (by simp)]
    rw [splitOnNewline]
  rw [decodeChunk, hsplit]
  rw [List.filterMap]
  rw [if_pos (startsWithChars_append _ _)]
  have hdrop : (("data: ".data ++ stringifyJObj (jsonOfEvent e)).drop 6)
      = stringifyJObj (jsonOfEvent e) := by
    rw [show (6 : Nat) = ("data: ".data).length from rfl]
    exact List.drop_left _ _
  rw [hdrop]
  have hnd : ¬ (stringifyJObj (jsonOfEvent e) = ("[DONE]".data)) := by
    intro hcontra
    have h1 : (stringifyJObj (jsonOfEvent e)).head? = some (Char.ofNat 123) := by
      rw [stringifyJObj]
      rfl
    rw [hcontra] at h1
    exact absurd h1 (by decide)
  rw [if_neg hnd, parseJson_stringify]
  simp [List.filterMap, startsWithChars]

/-! ## Runs in which a pending promise may reject (route.ts 142-194)

A generator's `next()` promise can also reject (the OpenAI request
itself throws, or iterating the response stream throws).  The
`await Promise.race` then throws, control jumps to the catch block
(route.ts 186-194), which enqueues one bare error frame -
`JSON.stringify({type: 'error', error: message})`, with no `job` and
no `timestamp` field - and closes the stream at once: no `complete`
event, and no further `next()` call on any generator. -/

/-- One generator as the merge loop sees it: the events its `next()`
calls yield in order; afterwards, if `failMsg` is set, the following
`next()` call rejects with that message, otherwise it resolves with
`done: true`. -/
structure GenBehavior where
  events : List StreamEvent
  failMsg : Option String
  deriving DecidableEq

/-- One frame payload enqueued on the SSE stream: an event's JSON
(normal path) or the catch block's bare error object. -/
inductive FramePayload where
  | ev (e : StreamEvent)
  | catchError (msg : String)
  deriving DecidableEq

/-- The JSON object a frame payload serialises to: the event's object,
or the catch block's object literal with only `type` and `error`. -/
def payloadJson : FramePayload → JObj
  | .ev e => jsonOfEvent e
  | .catchError msg => [("type", .str "error"), ("error", .str msg)]

/-- Termination measure over pending generator behaviours. -/
def behaviorMeasure (p : List (Nat × GenBehavior)) : Nat :=
  (p.map (fun e => e.2.events.length + 1)).sum

/-- The full sequence of frame payloads a run of `POST`'s stream
callback enqueues: the merge loop racing one pending `next()` per
generator, the final `complete` event once the pending map drains,
and - if the raced promise rejects - the catch block's single bare
error frame, after which the stream closes with nothing further. -/
def runFrames (sched : Nat → Nat) (k : Nat) (pending : List (Nat × GenBehavior))
    (ts : Nat) : List FramePayload :=
  match hpick : pickAt pending (sched k % pending.length) with
  | none => [.ev (.complete ts)]
  | some (pre, (g, b), post) =>
      match hev : b.events with
      | e :: rest =>
          .ev e :: runFrames sched (k + 1) (pre ++ (g, ⟨rest, b.failMsg⟩) :: post) ts
      | [] =>
          match b.failMsg with
          | none => runFrames sched (k + 1) (pre ++ post) ts
          | some m => [.catchError m]
termination_by behaviorMeasure pending
decreasing_by
  · have hdecomp := pickAt_eq_append _ _ _ _ _ hpick
    subst hdecomp
    simp [behaviorMeasure, hev]
  · have hdecomp := pickAt_eq_append _ _ _ _ _ hpick
    subst hdecomp
    simp [behaviorMeasure]

theorem runFrames_nil (sched : Nat → Nat) (k ts : Nat) :
    runFrames sched k [] ts = [.ev (.complete ts)] := by
  conv_lhs => rw [runFrames.eq_def]
  simp [pickAt]

theorem runFrames_yield (sched : Nat → Nat) (k ts : Nat)
    (pending pre post : List (Nat × GenBehavior)) (g : Nat) (b : GenBehavior)
    (e : StreamEvent) (rest : List StreamEvent)
    (hpick : pickAt pending (sched k % pending.length) = some (pre, (g, b), post))
    (hev : b.events = e :: rest) :
    runFrames sched k pending ts
      = .ev e :: runFrames sched (k + 1) (pre ++ (g, ⟨rest, b.failMsg⟩) :: post) ts := by
  conv_lhs => rw [runFrames.eq_def]
  split
  · simp_all
  · rename_i h
    rw [hpick] at h
    cases h
    split
    · rename_i hev2
      rw [hev] at hev2
      cases hev2
      rfl
    · rename_i hev2
      rw [hev] at hev2
      cases hev2

theorem runFrames_remove (sched : Nat → Nat) (k ts : Nat)
    (pending pre post : List (Nat × GenBehavior)) (g : Nat) (b : GenBehavior)
    (hpick : pickAt pending (sched k % pending.length) = some (pre, (g, b), post))
    (hev : b.events = []) (hfail : b.failMsg = none) :
    runFrames sched k pending ts = runFrames sched (k + 1) (pre ++ post) ts := by
  conv_lhs => rw [runFrames.eq_def]
  split
  · simp_all
  · rename_i h
    rw [hpick] at h
    cases h
    split
    · rename_i hev2
      rw [hev] at hev2
      cases hev2
    · split
      · rfl
      · rename_i hfail2
        rw [hfail] at hfail2
        cases hfail2

theorem runFrames_reject (sched : Nat → Nat) (k ts : Nat)
    (pending pre post : List (Nat × GenBehavior)) (g : Nat) (b : GenBehavior) (m : String)
    (hpick : pickAt pending (sched k % pending.length) = some (pre, (g, b), post))
    (hev : b.events = []) (hfail : b.failMsg = some m) :
    runFrames sched k pending ts = [.catchError m] := by
  conv_lhs => rw [runFrames.eq_def]
  split
  · simp_all
  · rename_i h
    rw [hpick] at h
    cases h
    split
    · rename_i hev2
      rw [hev] at hev2
      cases hev2
    · split
      · rename_i hfail2
        rw [hfail] at hfail2
        cases hfail2
      · rename_i hfail2
        rw [hfail] at hfail2
        cases hfail2
        rfl

/-- Structure of a run that aborts: everything before the single catch
frame is an event frame from the generators (never `complete`), the
catch frame is last, and nothing follows it. -/
theorem runFrames_catch_structure (sched : Nat → Nat) :
    ∀ (k : Nat) (pending : List (Nat × GenBehavior)) (ts : Nat),
      (∀ p ∈ pending, ∀ e2 ∈ (Prod.snd p).events, e2.isComplete = false) →
      ∀ m, FramePayload.catchError m ∈ runFrames sched k pending ts →
      ∃ pfx, runFrames sched k pending ts = pfx ++ [.catchError m] ∧
        ∀ f ∈ pfx, ∃ e2, f = .ev e2 ∧ e2.isComplete = false := by
  intro k pending ts
  induction k, pending, ts using runFrames.induct sched with
  | case1 k pending ts hpick =>
    intro _ m hm
    rw [runFrames.eq_def] at hm
    rw [hpick] at hm
    simp at hm
  | case2 k pending ts pre g b post hpick e rest hev ih =>
    intro hnc m hm
    have hdecomp := pickAt_eq_append _ _ _ _ _ hpick
    subst hdecomp
    rw [runFrames_yield sched k ts _ pre post g b e rest hpick hev] at hm ⊢
    rcases List.mem_cons.mp hm with h | h
    · cases h
    · have hnc' : ∀ p ∈ pre ++ (g, (⟨rest, b.failMsg⟩ : GenBehavior)) :: post,
          ∀ e2 ∈ (Prod.snd p).events, e2.isComplete = false := by
        intro p hp e2 he2
        rcases List.mem_append.mp hp with hmem | hmem
        · exact hnc p (by simp [hmem]) e2 he2
        rcases List.mem_cons.mp hmem with hmem | hmem
        · subst hmem
          refine hnc (g, b) (by simp) e2 ?_
          simp only at he2
          rw [hev]
          exact List.mem_cons_of_mem _ he2
        · exact hnc p (by simp [hmem]) e2 he2
      obtain ⟨pfx, heq, hall⟩ := ih hnc' m h
      refine ⟨.ev e :: pfx, by rw [heq]; simp, ?_⟩
      intro f hf
      rcases List.mem_cons.mp hf with hf | hf
      · subst hf
        refine ⟨e, rfl, ?_⟩
        have := hnc (g, b) (by simp) e (by rw [hev]; simp)
        exact this
      · exact hall f hf
  | case3 k pending ts pre g b post hpick hev hfail ih =>
    intro hnc m hm
    have hdecomp := pickAt_eq_append _ _ _ _ _ hpick
    subst hdecomp
    rw [runFrames_remove sched k ts _ pre post g b hpick hev hfail] at hm ⊢
    have hnc' : ∀ p ∈ pre ++ post, ∀ e2 ∈ (Prod.snd p).events, e2.isComplete = false := by
      intro p hp e2 he2
      rcases List.mem_append.mp hp with hmem | hmem
      · exact hnc p (by simp [hmem]) e2 he2
      · exact hnc p (by simp [hmem]) e2 he2
    exact ih hnc' m hm
  | case4 k pending ts pre g b post hpick hev m2 hfail =>
    intro _ m hm
    rw [runFrames_reject sched k ts _ pre post g b m2 hpick hev hfail] at hm ⊢
    rw [List.mem_singleton] at hm
    cases hm
    exact ⟨[], rfl, by simp⟩

/-! ## Request validation of `POST` (route.ts 127-137) -/

/-- A request body as the validation reads it: `queries` is `some`
exactly when `body.queries` is an array; an entry (or `query`) is
`none` when the field is absent or null, `some s` when it is the
string `s` (the spec's request data model has string entries only). -/
structure RequestBody where
  queries : Option (List (Option String))
  query : Option String

/-- The derived query list: `body.queries` when it is an array,
otherwise the one-element list `[body.query]`. -/
def deriveQueries (b : RequestBody) : List (Option String) :=
  match b.queries with
  | some qs => qs
  | none => [b.query]

/-- JavaScript falsiness of one entry (`!q`): absent/null, or the
empty string. -/
def isFalsyQuery : Option String → Bool
  | none => true
  | some s => s.isEmpty

/-- The two responses `POST` can produce: the immediate 400 JSON error
(no generator constructed, no stream created), or the SSE stream
response whose `start` callback builds one generator per query. -/
inductive PostResponse where
  | badRequest
  | streamResponse (queries : List (Option String))
  deriving DecidableEq

/-- Validation and branching of `POST`: reject when the derived list
is empty or some entry is falsy (`!queries.length ||
queries.some(q => !q)`), otherwise return the streaming response. -/
def postValidate (b : RequestBody) : PostResponse :=
  if (deriveQueries b).isEmpty || (deriveQueries b).any isFalsyQuery then .badRequest
  else .streamResponse (deriveQueries b)

/-! ## Shared wrapper over the merge-loop filter lemma -/

theorem mergeLoop_filter_of_mem {α : Type _} (sched : Nat → Nat)
    (gens : List (Nat × List α)) (g : Nat) (evs : List α)
    (hnd : (gens.map Prod.fst).Nodup) (hmem : (g, evs) ∈ gens) :
    (mergeLoop sched 0 gens).filter (fun q => q.1 == g) = evs.map (fun e => (g, e)) := by
  rw [mergeLoop_eventsOf sched g 0 gens hnd]
  obtain ⟨pre, post, hsplit⟩ := List.append_of_mem hmem
  subst hsplit
  have hmap : (pre ++ (g, evs) :: post).map Prod.fst
      = pre.map Prod.fst ++ g :: post.map Prod.fst := by simp
  rw [hmap] at hnd
  obtain ⟨h1, h2⟩ := nodup_middle hnd
  rw [eventsOf_append, eventsOf_cons, eventsOf_eq_nil g pre h1, eventsOf_eq_nil g post h2]
  simp

/-! ## The claims -/

/-- C1: for every number of producer generators and every schedule of
promise resolutions, the merged output of the `POST` merge loop
contains, for each generator, exactly that generator's yielded events
in that generator's own order (no loss, no duplication, no
reordering within a producer), and every merged event originates from
one of the generators. -/
theorem merge_no_loss_no_dup_order_preserved {α : Type _} (sched : Nat → Nat)
    (gens : List (Nat × List α)) (hnd : (gens.map Prod.fst).Nodup) :
    (∀ g evs, (g, evs) ∈ gens →
      (mergeLoop sched 0 gens).filter (fun q => q.1 == g) = evs.map (fun e => (g, e)))
    ∧ (∀ q ∈ mergeLoop sched 0 gens, ∃ p ∈ gens, q.1 = p.1 ∧ q.2 ∈ p.2) := by
  constructor
  · intro g evs hmem
    exact mergeLoop_filter_of_mem sched gens g evs hnd hmem
  · intro q hq
    exact mergeLoop_mem sched 0 gens q hq

theorem merge_no_loss_no_dup_order_preserved_witness :
    ((([((0 : Nat), [StreamEvent.jobDone 0 5]), ((1 : Nat), [StreamEvent.jobDone 1 7])]
        : List (Nat × List StreamEvent)).map Prod.fst).Nodup)
    ∧ ((∀ g evs, (g, evs) ∈ ([((0 : Nat), [StreamEvent.jobDone 0 5]),
          ((1 : Nat), [StreamEvent.jobDone 1 7])] : List (Nat × List StreamEvent)) →
        (mergeLoop (fun _ => 0) 0 [((0 : Nat), [StreamEvent.jobDone 0 5]),
            ((1 : Nat), [StreamEvent.jobDone 1 7])]).filter (fun q => q.1 == g)
          = evs.map (fun e => (g, e)))
      ∧ (∀ q ∈ mergeLoop (fun _ => 0) 0 [((0 : Nat), [StreamEvent.jobDone 0 5]),
          ((1 : Nat), [StreamEvent.jobDone 1 7])],
          ∃ p ∈ ([((0 : Nat), [StreamEvent.jobDone 0 5]),
            ((1 : Nat), [StreamEvent.jobDone 1 7])] : List (Nat × List StreamEvent)),
            q.1 = p.1 ∧ q.2 ∈ p.2)) :=
  ⟨by decide, merge_no_loss_no_dup_order_preserved (fun _ => 0) _ (by decide)⟩

/-- C2: with one entry per generator initially, every state the
pending map passes through keeps at most one entry per generator
(distinct keys), the key set only ever shrinks (a deleted generator is
never reinserted: each next key list is a sublist of the previous),
and the map drains in finitely many iterations, after which the loop
condition `pendingPromises.size > 0` stays false for ever.  A
replacement `next()` appears only in the same step that consumed the
previous result, never concurrently: each step rewrites the resolved
generator's single entry in place (`mergeStep`). -/
theorem merge_one_slot_invariant_and_termination {α : Type _} (sched : Nat → Nat)
    (gens : List (Nat × List α)) (hnd : (gens.map Prod.fst).Nodup) :
    (∀ n, ((mergeTrace sched gens n).map Prod.fst).Nodup)
    ∧ (∀ n, ((mergeTrace sched gens (n + 1)).map Prod.fst).Sublist
        ((mergeTrace sched gens n).map Prod.fst))
    ∧ (∃ N, ∀ m, N ≤ m → mergeTrace sched gens m = []) := by
  have hsub : ∀ n, ((mergeTrace sched gens (n + 1)).map Prod.fst).Sublist
      ((mergeTrace sched gens n).map Prod.fst) := by
    intro n
    rw [show mergeTrace sched gens (n + 1) = mergeStep sched n (mergeTrace sched gens n)
      from rfl]
    exact mergeStep_keys_sublist sched n _
  have hnodup : ∀ n, ((mergeTrace sched gens n).map Prod.fst).Nodup := by
    intro n
    induction n with
    | zero => exact hnd
    | succ n ih => exact List.Nodup.sublist (hsub n) ih
  refine ⟨hnodup, hsub, ?_⟩
  refine ⟨pendingMeasure gens + 1, ?_⟩
  have hempty : mergeTrace sched gens (pendingMeasure gens + 1) = [] := by
    rcases mergeTrace_measure sched gens (pendingMeasure gens + 1) with h | h
    · exact h
    · by_contra hne
      have := one_le_pendingMeasure _ hne
      omega
  intro m hm
  induction m, hm using Nat.le_induction with
  | base => exact hempty
  | succ m _ ih =>
    rw [show mergeTrace sched gens (m + 1) = mergeStep sched m (mergeTrace sched gens m)
      from rfl, ih, mergeStep_nil]

theorem merge_one_slot_invariant_and_termination_witness :
    ((([((0 : Nat), [StreamEvent.jobDone 0 5]), ((1 : Nat), [])]
        : List (Nat × List StreamEvent)).map Prod.fst).Nodup)
    ∧ ((∀ n, ((mergeTrace (fun _ => 0) [((0 : Nat), [StreamEvent.jobDone 0 5]),
          ((1 : Nat), [])] n).map Prod.fst).Nodup)
      ∧ (∀ n, ((mergeTrace (fun _ => 0) [((0 : Nat), [StreamEvent.jobDone 0 5]),
          ((1 : Nat), [])] (n + 1)).map Prod.fst).Sublist
          ((mergeTrace (fun _ => 0) [((0 : Nat), [StreamEvent.jobDone 0 5]),
            ((1 : Nat), [])] n).map Prod.fst))
      ∧ (∃ N, ∀ m, N ≤ m → mergeTrace (fun _ => 0) [((0 : Nat), [StreamEvent.jobDone 0 5]),
          ((1 : Nat), [])] m = [])) :=
  ⟨by decide, merge_one_slot_invariant_and_termination (fun _ => 0) _ (by decide)⟩

/-- C4: in every (non-rejecting) run of the merge loop, the `complete`
event is enqueued exactly once, it is strictly the last event of the
run, and it comes only after every producer generator has reported
done: all of every generator's events already appear in the merged
output before it. -/
theorem complete_emitted_once_last (gens : List (Nat × List StreamEvent))
    (sched : Nat → Nat) (ts : Nat)
    (hnd : (gens.map Prod.fst).Nodup)
    (hnc : ∀ p ∈ gens, ∀ e ∈ Prod.snd p, e.isComplete = false) :
    (postEnqueued gens sched ts).countP (fun e => e.isComplete) = 1
    ∧ (postEnqueued gens sched ts).getLast? = some (.complete ts)
    ∧ ∀ p ∈ gens, (mergeLoop sched 0 gens).filter (fun q => q.1 == p.1)
        = (Prod.snd p).map (fun e => (p.1, e)) := by
  refine ⟨?_, ?_, ?_⟩
  · rw [postEnqueued, List.countP_append]
    have hz : (List.map Prod.snd (mergeLoop sched 0 gens)).countP
        (fun e => e.isComplete) = 0 := by
      rw [List.countP_eq_zero]
      intro e he
      obtain ⟨q, hq, hmem⟩ := List.mem_map.mp he
      obtain ⟨p, hp, _, h2⟩ := mergeLoop_mem sched 0 gens q hq
      rw [← hmem]
      simp [hnc p hp q.2 h2]
    rw [hz]
    simp [List.countP_cons, StreamEvent.isComplete]
  · rw [postEnqueued]
    exact List.getLast?_concat _
  · intro p hp
    exact mergeLoop_filter_of_mem sched gens p.1 p.2 hnd (by simpa using hp)

theorem complete_emitted_once_last_witness :
    ((([((0 : Nat), [StreamEvent.content 0 "x" 3])]
        : List (Nat × List StreamEvent)).map Prod.fst).Nodup)
    ∧ (∀ p ∈ ([((0 : Nat), [StreamEvent.content 0 "x" 3])]
        : List (Nat × List StreamEvent)), ∀ e ∈ Prod.snd p, e.isComplete = false)
    ∧ ((postEnqueued [((0 : Nat), [StreamEvent.content 0 "x" 3])] (fun _ => 0) 9).countP
        (fun e => e.isComplete) = 1
      ∧ (postEnqueued [((0 : Nat), [StreamEvent.content 0 "x" 3])] (fun _ => 0) 9).getLast?
          = some (.complete 9)
      ∧ ∀ p ∈ ([((0 : Nat), [StreamEvent.content 0 "x" 3])] : List (Nat × List StreamEvent)),
          (mergeLoop (fun _ => 0) 0 [((0 : Nat), [StreamEvent.content 0 "x" 3])]).filter
              (fun q => q.1 == p.1)
            = (Prod.snd p).map (fun e => (p.1, e))) :=
  ⟨by decide, by decide,
    complete_emitted_once_last [((0 : Nat), [StreamEvent.content 0 "x" 3])] (fun _ => 0) 9
      (by decide) (by decide)⟩

/-- C5: when a producer's raw OpenAI stream carries exactly one
`response.failed` event, `runSingleDeepResearch` yields exactly one
`error` event for that job; the merge loop forwards it downstream
like any other event (that generator's whole event sequence, including
the error event, appears in the merged output in order, so its next
`next()` was issued after the error was enqueued), and the run still
ends with the final `complete` event. -/
theorem producer_error_forwarded_run_completes
    (rss : List (List RawResponseEvent)) (clock : Nat → Nat → Nat) (sched : Nat → Nat)
    (ts j : Nat) (raws : List RawResponseEvent)
    (hj : (j, raws) ∈ rss.enum)
    (hfail : raws.countP (fun r => r == RawResponseEvent.responseFailed) = 1) :
    (mergeLoop sched 0 (postGens rss clock)).countP
        (fun q => (Prod.snd q).isError && q.1 == j) = 1
    ∧ (mergeLoop sched 0 (postGens rss clock)).filter (fun q => q.1 == j)
        = (runSingleDeepResearch j (clock j) 0 raws).map (fun e => (j, e))
    ∧ (postEnqueued (postGens rss clock) sched ts).getLast? = some (.complete ts) := by
  have hmem : (j, runSingleDeepResearch j (clock j) 0 raws) ∈ postGens rss clock := by
    rw [postGens]
    exact List.mem_map.mpr ⟨(j, raws), hj, rfl⟩
  have hnd := postGens_keys_nodup rss clock
  have hfilter := mergeLoop_filter_of_mem sched (postGens rss clock) j
    (runSingleDeepResearch j (clock j) 0 raws) hnd hmem
  refine ⟨?_, hfilter, ?_⟩
  · rw [← List.countP_filter, hfilter, List.countP_map]
    rw [show ((fun q => (Prod.snd q).isError) ∘ (fun e => (j, e)))
        = fun e : StreamEvent => e.isError from rfl]
    rw [runSingle_error_count j (clock j) 0 raws, hfail]
  · rw [postEnqueued]
    exact List.getLast?_concat _

theorem producer_error_forwarded_run_completes_witness :
    (((0 : Nat), [RawResponseEvent.responseFailed]) ∈ ([[RawResponseEvent.responseFailed]]
      : List (List RawResponseEvent)).enum)
    ∧ ([RawResponseEvent.responseFailed].countP
        (fun r => r == RawResponseEvent.responseFailed) = 1)
    ∧ ((mergeLoop (fun _ => 0) 0 (postGens [[RawResponseEvent.responseFailed]]
          (fun _ _ => 2))).countP (fun q => (Prod.snd q).isError && q.1 == 0) = 1
      ∧ (mergeLoop (fun _ => 0) 0 (postGens [[RawResponseEvent.responseFailed]]
          (fun _ _ => 2))).filter (fun q => q.1 == 0)
          = (runSingleDeepResearch 0 ((fun _ _ => 2) 0) 0
              [RawResponseEvent.responseFailed]).map (fun e => ((0 : Nat), e))
      ∧ (postEnqueued (postGens [[RawResponseEvent.responseFailed]] (fun _ _ => 2))
          (fun _ => 0) 4).getLast? = some (.complete 4)) :=
  ⟨by decide, by decide,
    producer_error_forwarded_run_completes [[RawResponseEvent.responseFailed]]
      (fun _ _ => 2) (fun _ => 0) 4 0 [RawResponseEvent.responseFailed]
      (by decide) (by decide)⟩

/-- Two demonstration generators: generator 0 yields two events,
generator 1 yields one. -/
def demoGens : List (Nat × List StreamEvent) :=
  [(0, [.content 0 "a1" 0, .content 0 "a2" 0]), (1, [.content 1 "b1" 0])]

/-- An arrival schedule under which generator 1's promise settles
first, then generator 0 is polled again before its first issued
`next()` was ever consumed. -/
def demoSched : Nat → Nat := fun k => if k = 0 then 1 else 0

/-- C3: under `demoSched` the naive merge formulation (a fresh
`next()` for every active generator on every iteration, as in the
earlier route version) silently drops generator 0's first event: its
output misses an event the generator yielded, while the
one-pending-promise merge loop of the current route delivers that
event under every schedule - so the two loops are not
output-equivalent. -/
theorem naive_merge_drops_events :
    naiveLoop demoSched 0 demoGens
        = [((1 : Nat), StreamEvent.content 1 "b1" 0), ((0 : Nat), StreamEvent.content 0 "a2" 0)]
    ∧ ((0 : Nat), StreamEvent.content 0 "a1" 0) ∉ naiveLoop demoSched 0 demoGens
    ∧ (∀ sched2 : Nat → Nat,
        ((0 : Nat), StreamEvent.content 0 "a1" 0) ∈ mergeLoop sched2 0 demoGens)
    ∧ (∀ sched2 : Nat → Nat, naiveLoop demoSched 0 demoGens ≠ mergeLoop sched2 0 demoGens) := by
  have h1 : naiveLoop demoSched 0 demoGens
      = [((1 : Nat), StreamEvent.content 1 "b1" 0),
          ((0 : Nat), StreamEvent.content 0 "a2" 0)] := by
    rw [naiveLoop_emit demoSched 0 demoGens
      [((0 : Nat), [StreamEvent.content 0 "a1" 0, StreamEvent.content 0 "a2" 0])] []
      1 [StreamEvent.content 1 "b1" 0] (by decide) (by decide)]
    rw [naiveLoop_emit demoSched 1 demoGens
      [] [((1 : Nat), [StreamEvent.content 1 "b1" 0])]
      0 [StreamEvent.content 0 "a1" 0, StreamEvent.content 0 "a2" 0] (by decide) (by decide)]
    rw [naiveLoop_remove demoSched 2 demoGens
      [] [((1 : Nat), [StreamEvent.content 1 "b1" 0])]
      0 [StreamEvent.content 0 "a1" 0, StreamEvent.content 0 "a2" 0] (by decide) (by decide)]
    rw [List.nil_append]
    rw [naiveLoop_remove demoSched 3 [((1 : Nat), [StreamEvent.content 1 "b1" 0])]
      [] [] 1 [StreamEvent.content 1 "b1" 0] (by decide) (by decide)]
    rw [List.nil_append, naiveLoop_nil]
    decide
  have h3 : ∀ sched2 : Nat → Nat,
      ((0 : Nat), StreamEvent.content 0 "a1" 0) ∈ mergeLoop sched2 0 demoGens := by
    intro sched2
    have hf := mergeLoop_filter_of_mem sched2 demoGens 0
      [StreamEvent.content 0 "a1" 0, StreamEvent.content 0 "a2" 0] (by decide) (by decide)
    have hmemf : ((0 : Nat), StreamEvent.content 0 "a1" 0)
        ∈ (mergeLoop sched2 0 demoGens).filter (fun q => q.1 == 0) := by
      rw [hf]
      decide
    exact List.mem_of_mem_filter hmemf
  refine ⟨h1, ?_, h3, ?_⟩
  · rw [h1]
    decide
  · intro sched2 heq
    have hmem := h3 sched2
    rw [← heq, h1] at hmem
    exact absurd hmem (by decide)

/-- C6 counterexample: in the run of one generator whose first
`next()` rejects, the catch block writes a frame whose JSON object has
no `timestamp` field and, although its type tag is not `complete`,
no `job` field either - so not every frame written to a run's output
stream carries a timestamp, and `complete` is not the only type
lacking `job`. -/
theorem frame_shape_claim_counterexample :
    runFrames (fun _ => 0) 0 [((0 : Nat), ⟨[], some "boom"⟩)] 0
      = [FramePayload.catchError "boom"]
    ∧ ¬ (∀ f ∈ runFrames (fun _ => 0) 0 [((0 : Nat), ⟨[], some "boom"⟩)] 0,
        "timestamp" ∈ jsonKeys (payloadJson f)
        ∧ ("job" ∉ jsonKeys (payloadJson f) → ∃ t, f = .ev (.complete t))) := by
  have h : runFrames (fun _ => 0) 0 [((0 : Nat), ⟨[], some "boom"⟩)] 0
      = [FramePayload.catchError "boom"] :=
    runFrames_reject (fun _ => 0) 0 0 [((0 : Nat), ⟨[], some "boom"⟩)] [] [] 0
      ⟨[], some "boom"⟩ "boom" (by decide) rfl rfl
  refine ⟨h, fun hall => ?_⟩
  have hspec := hall (FramePayload.catchError "boom") (by rw [h]; simp)
  exact absurd hspec.1 (by decide)

/-- C6 amended: every frame written on the normal path - every event
frame, including the final `complete` - carries a `type` tag and a
`timestamp` field, and among event frames `complete` is the only type
whose JSON lacks the `job` field; the one exception in a run's output
is the catch block's error frame, whose JSON has exactly the keys
`type` and `error` (no timestamp, no job). -/
theorem frame_shape_amended (gens : List (Nat × GenBehavior)) (sched : Nat → Nat)
    (ts : Nat) (f : FramePayload) (hf : f ∈ runFrames sched 0 gens ts) :
    "type" ∈ jsonKeys (payloadJson f)
    ∧ (∀ e, f = .ev e → "timestamp" ∈ jsonKeys (payloadJson f)
        ∧ ("job" ∉ jsonKeys (payloadJson f) ↔ ∃ t, e = .complete t))
    ∧ (∀ m, f = .catchError m → jsonKeys (payloadJson f) = ["type", "error"]) := by
  clear hf
  cases f with
  | ev e =>
    refine ⟨?_, ?_, by intro m hm; cases hm⟩
    · cases e <;> simp [payloadJson, jsonOfEvent, jsonKeys]
    · intro e2 he2
      cases he2
      cases e <;> simp [payloadJson, jsonOfEvent, jsonKeys]
  | catchError m =>
    refine ⟨by simp [payloadJson, jsonKeys], ?_, ?_⟩
    · intro e2 he2
      cases he2
    · intro m2 hm2
      cases hm2
      simp [payloadJson, jsonKeys]

theorem frame_shape_amended_witness :
    (FramePayload.ev (.complete 0) ∈ runFrames (fun _ => 0) 0 [] 0)
    ∧ ("type" ∈ jsonKeys (payloadJson (FramePayload.ev (.complete 0)))
      ∧ (∀ e, FramePayload.ev (.complete 0) = .ev e →
          "timestamp" ∈ jsonKeys (payloadJson (FramePayload.ev (.complete 0)))
          ∧ ("job" ∉ jsonKeys (payloadJson (FramePayload.ev (.complete 0)))
              ↔ ∃ t, e = .complete t))
      ∧ (∀ m, FramePayload.ev (.complete 0) = .catchError m →
          jsonKeys (payloadJson (FramePayload.ev (.complete 0))) = ["type", "error"])) :=
  ⟨by rw [runFrames_nil]; simp,
    frame_shape_amended [] (fun _ => 0) 0 (FramePayload.ev (.complete 0))
      (by rw [runFrames_nil]; simp)⟩

/-- C7 counterexample: splitting the single frame of one event into
two transport chunks at byte offset 15 (inside the JSON text) makes
the consumer decoder dispatch nothing at all - the first fragment
fails `JSON.parse` and is skipped, the second does not start with the
marker - whereas the whole frame as one chunk dispatches the event;
so the decoder is not split-invariant. -/
theorem split_frame_dropped_counterexample :
    ((encodeFrame (.content 0 "a" 0)).take 15 ++ (encodeFrame (.content 0 "a" 0)).drop 15
        = encodeFrame (.content 0 "a" 0))
    ∧ decodeRun [(encodeFrame (.content 0 "a" 0)).take 15,
        (encodeFrame (.content 0 "a" 0)).drop 15] = []
    ∧ decodeRun [encodeFrame (.content 0 "a" 0)] = [jsonOfEvent (.content 0 "a" 0)]
    ∧ ([] : List JObj) ≠ [jsonOfEvent (.content 0 "a" 0)] := by
  refine ⟨List.take_append_drop 15 _, by decide, ?_, by decide⟩
  rw [show decodeRun [encodeFrame (.content 0 "a" 0)]
      = decodeChunk (encodeFrame (.content 0 "a" 0)) from by simp [decodeRun]]
  exact decodeChunk_encodeFrame _

/-- C7 amended: when chunk boundaries coincide with frame boundaries
(each chunk carries whole frames), the consumer decoder reconstructs
and dispatches exactly the sequence of framed events; a frame whose
bytes are split across two chunks can instead be dropped entirely, as
the counterexample shows. -/
theorem decoder_frame_aligned_exact (es : List StreamEvent) :
    decodeRun (es.map encodeFrame) = es.map jsonOfEvent := by
  induction es with
  | nil => simp [decodeRun]
  | cons e es ih =>
    rw [List.map_cons, List.map_cons]
    rw [show decodeRun (encodeFrame e :: es.map encodeFrame)
        = decodeChunk (encodeFrame e) ++ decodeRun (es.map encodeFrame) from by
      simp [decodeRun]]
    rw [decodeChunk_encodeFrame, ih]
    rfl

/-- C8: for every `StreamEvent`, encoding it as one SSE frame (the
marker `data: `, the JSON text, a double newline) and decoding that
frame with the consumer's procedure (split on newlines, take the line
with the marker, strip six characters, `JSON.parse`) dispatches
exactly one JSON object equal to the event's, and that object
determines the original event. -/
theorem encode_decode_round_trip (e : StreamEvent) :
    decodeChunk (encodeFrame e) = [jsonOfEvent e]
    ∧ eventOfJson (jsonOfEvent e) = some e := by
  refine ⟨decodeChunk_encodeFrame e, ?_⟩
  cases e <;> rfl

/-- C9: `POST` answers with the immediate non-stream 400 response -
produced before any generator is constructed or stream started -
exactly when the derived query list is empty or has a falsy (missing
or empty) entry; every other body gets the streaming response. -/
theorem post_validation_iff (b : RequestBody) :
    (postValidate b = .badRequest ↔
      deriveQueries b = [] ∨ ∃ q ∈ deriveQueries b, isFalsyQuery q = true)
    ∧ (postValidate b ≠ .badRequest →
        postValidate b = .streamResponse (deriveQueries b)) := by
  by_cases h : ((deriveQueries b).isEmpty || (deriveQueries b).any isFalsyQuery) = true
  · refine ⟨⟨fun _ => ?_, fun _ => by rw [postValidate, if_pos h]⟩, fun hne => ?_⟩
    · rcases Bool.or_eq_true_iff.mp h with h1 | h2
      · exact Or.inl (by simpa using h1)
      · exact Or.inr (List.any_eq_true.mp h2)
    · exact absurd (by rw [postValidate, if_pos h]) hne
  · have hb : postValidate b = .streamResponse (deriveQueries b) := by
      rw [postValidate, if_neg h]
    refine ⟨⟨fun hbad => ?_, fun hor => ?_⟩, fun _ => hb⟩
    · rw [hb] at hbad
      cases hbad
    · exfalso
      apply h
      rw [Bool.or_eq_true_iff]
      rcases hor with h1 | h2
      · exact Or.inl (by simpa using h1)
      · exact Or.inr (List.any_eq_true.mpr h2)

/-- Whether a frame payload is the catch block's error frame. -/
def FramePayload.isCatch : FramePayload → Bool
  | .catchError _ => true
  | .ev _ => false

/-- C10: if a generator's pending `next()` promise rejects during the
merge loop (and the rejection is delivered, i.e. the run's output
holds a catch frame), then that catch frame - whose JSON is exactly
the object with keys `type` and `error`, carrying neither `job` nor
`timestamp` - is enqueued exactly once and is the last frame of the
run: the stream closes immediately, no `complete` event is ever
emitted, and no further frame follows from any generator. -/
theorem rejection_aborts_run (gens : List (Nat × GenBehavior)) (sched : Nat → Nat)
    (ts : Nat) (m : String)
    (hnc : ∀ p ∈ gens, ∀ e ∈ (Prod.snd p).events, e.isComplete = false)
    (hm : FramePayload.catchError m ∈ runFrames sched 0 gens ts) :
    (runFrames sched 0 gens ts).countP FramePayload.isCatch = 1
    ∧ (runFrames sched 0 gens ts).getLast? = some (.catchError m)
    ∧ (∀ e, FramePayload.ev e ∈ runFrames sched 0 gens ts → e.isComplete = false)
    ∧ payloadJson (.catchError m) = [("type", .str "error"), ("error", .str m)]
    ∧ jsonKeys (payloadJson (.catchError m)) = ["type", "error"] := by
  obtain ⟨pfx, heq, hall⟩ := runFrames_catch_structure sched 0 gens ts hnc m hm
  refine ⟨?_, ?_, ?_, rfl, rfl⟩
  · rw [heq, List.countP_append]
    have hz : pfx.countP FramePayload.isCatch = 0 := by
      rw [List.countP_eq_zero]
      intro f hf
      obtain ⟨e2, he2, _⟩ := hall f hf
      subst he2
      simp [FramePayload.isCatch]
    rw [hz]
    simp [List.countP_cons, FramePayload.isCatch]
  · rw [heq]
    exact List.getLast?_concat _
  · intro e he
    rw [heq] at he
    rcases List.mem_append.mp he with h | h
    · obtain ⟨e2, he2, hc⟩ := hall _ h
      injection he2 with he3
      rw [he3]
      exact hc
    · rw [List.mem_singleton] at h
      cases h

theorem rejection_aborts_run_witness :
    (FramePayload.catchError "boom"
        ∈ runFrames (fun _ => 0) 0 [((0 : Nat), ⟨[], some "boom"⟩)] 0)
    ∧ ((runFrames (fun _ => 0) 0 [((0 : Nat), ⟨[], some "boom"⟩)] 0).countP
          FramePayload.isCatch = 1
      ∧ (runFrames (fun _ => 0) 0 [((0 : Nat), ⟨[], some "boom"⟩)] 0).getLast?
          = some (.catchError "boom")
      ∧ (∀ e, FramePayload.ev e ∈ runFrames (fun _ => 0) 0
            [((0 : Nat), ⟨[], some "boom"⟩)] 0 → e.isComplete = false)
      ∧ payloadJson (.catchError "boom")
          = [("type", .str "error"), ("error", .str "boom")]
      ∧ jsonKeys (payloadJson (.catchError "boom")) = ["type", "error"]) := by
  have hrej : runFrames (fun _ => 0) 0 [((0 : Nat), ⟨[], some "boom"⟩)] 0
      = [FramePayload.catchError "boom"] :=
    runFrames_reject (fun _ => 0) 0 0 [((0 : Nat), ⟨[], some "boom"⟩)] [] [] 0
      ⟨[], some "boom"⟩ "boom" (by decide) rfl rfl
  have hmem : FramePayload.catchError "boom"
      ∈ runFrames (fun _ => 0) 0 [((0 : Nat), ⟨[], some "boom"⟩)] 0 := by
    rw [hrej]
    simp
  exact ⟨hmem, rejection_aborts_run _ _ _ _ (by decide) hmem⟩

end DeepResearch
